import Mathlib

/-!
Shallow embedding of the rule engine and search-engine decision logic of the
board-game platform (sources: HW1.cpp / HW2.cpp).  Machine integers are
modelled by Int / Nat (no overflow is reachable: coordinates and counts stay
far below 2^31), `float`/`double` score accumulators by ℚ (they only ever hold
sums of 0, 0.5, 1 and 3.75, all exact in binary floating point), and the
recursive / loop-based searches (liberty DFS, territory BFS, bracket scan,
consecutive-run scan) by fuel-indexed structural recursion, with fuel chosen
at the call sites to dominate the recursion depth of the C++ original.
-/

/-- `enum PieceType { EMPTY = 0, BLACK = 1, WHITE = 2 }`. -/
inductive Piece where
  | EMPTY
  | BLACK
  | WHITE
deriving DecidableEq, Repr

/-- `enum GameStatus { PLAYING, BLACK_WIN, WHITE_WIN, DRAW }`. -/
inductive GameStatus where
  | PLAYING
  | BLACK_WIN
  | WHITE_WIN
  | DRAW
deriving DecidableEq, Repr

open Piece GameStatus

/-- `getOpponent`: `(p == BLACK) ? WHITE : BLACK`. -/
def getOpponent (p : Piece) : Piece :=
  if p = BLACK then WHITE else BLACK

/-- The board: a size and a grid of rows (`vector<vector<PieceType>> grid`,
indexed `grid[x][y]`). -/
structure Board where
  size : Nat
  grid : List (List Piece)
deriving DecidableEq, Repr

/-- `Board::isValidBounds`: `x >= 0 && x < size && y >= 0 && y < size`. -/
def Board.isValidBounds (b : Board) (x y : Int) : Prop :=
  0 ≤ x ∧ x < (b.size : Int) ∧ 0 ≤ y ∧ y < (b.size : Int)

instance (b : Board) (x y : Int) : Decidable (b.isValidBounds x y) := by
  unfold Board.isValidBounds; infer_instance

/-- `Board::getPiece`: out-of-bounds reads return `EMPTY`, in-bounds reads
return `grid[x][y]`. -/
def Board.getPiece (b : Board) (x y : Int) : Piece :=
  if b.isValidBounds x y then (b.grid.getD x.toNat []).getD y.toNat EMPTY
  else EMPTY

/-- `Board::setPiece`: out-of-bounds writes are a no-op, in-bounds writes
assign `grid[x][y] = p`. -/
def Board.setPiece (b : Board) (x y : Int) (p : Piece) : Board :=
  if b.isValidBounds x y then
    { b with grid := b.grid.set x.toNat ((b.grid.getD x.toNat []).set y.toNat p) }
  else b

/-- `Board::countPieces`: counts cells of the given kind over the whole grid. -/
def Board.countPieces (b : Board) (t : Piece) : Nat :=
  b.grid.flatten.countP (fun p => decide (p = t))

/-- Well-formedness of the `size × size` grid, maintained by the `Board`
constructor and all mutators in the source. -/
def Board.WF (b : Board) : Prop :=
  b.grid.length = b.size ∧ ∀ r ∈ b.grid, r.length = b.size

instance (b : Board) : Decidable b.WF := by
  unfold Board.WF; infer_instance

/-- The board coordinates visited by row-major `for i for j` loops. -/
def rowMajorCells (b : Board) : List (Int × Int) :=
  (List.range b.size).flatMap (fun i => (List.range b.size).map (fun j => ((i : Int), (j : Int))))

/-- The in-bounds coordinates, as a finite set. -/
def validCells (b : Board) : Finset (Int × Int) :=
  (Finset.range b.size ×ˢ Finset.range b.size).image (fun p => ((p.1 : Int), (p.2 : Int)))

/-- The four orthogonal directions, in the source's order
`dx[] = {0, 0, 1, -1}; dy[] = {1, -1, 0, 0}`. -/
def goDirs : List (Int × Int) := [(0, 1), (0, -1), (1, 0), (-1, 0)]

/-- Result of one liberty-DFS call: the liberty tally, the accumulated group
vector, and the visited-marker set. -/
structure DFSOut where
  libs : Nat
  group : List (Int × Int)
  visited : Finset (Int × Int)

/-- `GoRule::countLibertiesDFS`, with the mutable `visited` array and the
by-reference `group` vector threaded explicitly.  The extra fuel argument
bounds the recursion depth; the C++ recursion marks one new cell visited per
nested level, so any fuel exceeding the number of in-bounds cells reproduces
it exactly (the wrapper `GoRule.getLiberties` passes `size*size + 1`). -/
def countLibertiesDFS (b : Board) (color : Piece) :
    Nat → Int → Int → Finset (Int × Int) → List (Int × Int) → DFSOut
  | 0, _, _, vis, grp => ⟨0, grp, vis⟩
  | Nat.succ fuel, x, y, vis, grp =>
    if b.isValidBounds x y then
      if (x, y) ∈ vis then ⟨0, grp, vis⟩
      else if b.getPiece x y = EMPTY then ⟨1, grp, insert (x, y) vis⟩
      else if b.getPiece x y = color then
        let r1 := countLibertiesDFS b color fuel x (y + 1) (insert (x, y) vis) (grp ++ [(x, y)])
        let r2 := countLibertiesDFS b color fuel x (y - 1) r1.visited r1.group
        let r3 := countLibertiesDFS b color fuel (x + 1) y r2.visited r2.group
        let r4 := countLibertiesDFS b color fuel (x - 1) y r3.visited r3.group
        ⟨r1.libs + r2.libs + r3.libs + r4.libs, r4.group, r4.visited⟩
      else ⟨0, grp, insert (x, y) vis⟩
    else ⟨0, grp, vis⟩

/-- `GoRule::getLiberties`: clears the visited markers and runs the DFS with a
fresh group vector. -/
def GoRule.getLiberties (b : Board) (x y : Int) (color : Piece) : DFSOut :=
  countLibertiesDFS b color (b.size * b.size + 1) x y ∅ []

/-- The body of the capture loop of `GoRule::isValidMove`: the neighbor of
`(x, y)` in direction `d` is an in-bounds opponent stone whose group has
liberty tally zero on the board `b1` holding the speculative placement. -/
def goCaptureAt (b1 : Board) (x y : Int) (opp : Piece) (d : Int × Int) : Prop :=
  b1.isValidBounds (x + d.1) (y + d.2)
    ∧ b1.getPiece (x + d.1) (y + d.2) = opp
    ∧ (GoRule.getLiberties b1 (x + d.1) (y + d.2) opp).libs = 0

instance (b1 : Board) (x y : Int) (opp : Piece) (d : Int × Int) :
    Decidable (goCaptureAt b1 x y opp d) := by
  unfold goCaptureAt; infer_instance

/-- `GoRule::isValidMove`: speculative placement, capture / suicide analysis,
then reversion.  Returns the boolean answer together with the board in the
state the C++ member function leaves it (it mutates `*board` in place). -/
def GoRule.isValidMove (b : Board) (x y : Int) (player : Piece) : Bool × Board :=
  if b.isValidBounds x y ∧ b.getPiece x y = EMPTY then
    let b1 := b.setPiece x y player
    let captures := goDirs.any (fun d => decide (goCaptureAt b1 x y (getOpponent player) d))
    let suicide := !captures && decide ((GoRule.getLiberties b1 x y player).libs = 0)
    (!suicide, b1.setPiece x y EMPTY)
  else (false, b)

/-- Clearing every stone of a captured group (`for (auto& p : group)
board->setPiece(p.x, p.y, EMPTY)`). -/
def setGroupEmpty (b : Board) (grp : List (Int × Int)) : Board :=
  grp.foldl (fun bb q => bb.setPiece q.1 q.2 EMPTY) b

/-- One direction of `GoRule::removeDeadStones`: if the neighbor holds an
opponent stone whose group has liberty tally zero, clear that group. -/
def removeStep (x y : Int) (opp : Piece) (b : Board) (d : Int × Int) : Board :=
  if b.isValidBounds (x + d.1) (y + d.2) ∧ b.getPiece (x + d.1) (y + d.2) = opp then
    (if (GoRule.getLiberties b (x + d.1) (y + d.2) opp).libs = 0 then
      setGroupEmpty b (GoRule.getLiberties b (x + d.1) (y + d.2) opp).group
    else b)
  else b

/-- `GoRule::removeDeadStones`: the four orthogonal directions processed in
source order, each seeing the board as left by the previous one. -/
def GoRule.removeDeadStones (b : Board) (x y : Int) (opp : Piece) : Board :=
  goDirs.foldl (removeStep x y opp) b

/-- `GoRule::makeMove`: pass sentinel is a no-op; otherwise place the stone
and remove captured adjacent opponent groups. -/
def GoRule.makeMove (b : Board) (x y : Int) (player : Piece) : Board :=
  if x = -1 ∧ y = -1 then b
  else GoRule.removeDeadStones (b.setPiece x y player) x y (getOpponent player)

/-- State of the territory flood fill in `GoRule::calculateScore`. -/
structure FloodState where
  queue : List (Int × Int)
  checked : Finset (Int × Int)
  terr : List (Int × Int)
  tB : Bool
  tW : Bool

/-- Processing one neighbor direction of the dequeued cell `cur` inside the
territory BFS: unvisited empty neighbors are marked, enqueued and added to
the territory; stone neighbors set the touches-black / touches-white flags. -/
def floodStep (b : Board) (cur : Int × Int) (st : FloodState) (d : Int × Int) : FloodState :=
  if b.isValidBounds (cur.1 + d.1) (cur.2 + d.2) then
    (if b.getPiece (cur.1 + d.1) (cur.2 + d.2) = EMPTY then
      (if (cur.1 + d.1, cur.2 + d.2) ∈ st.checked then st
       else { st with checked := insert (cur.1 + d.1, cur.2 + d.2) st.checked,
                      queue := st.queue ++ [(cur.1 + d.1, cur.2 + d.2)],
                      terr := st.terr ++ [(cur.1 + d.1, cur.2 + d.2)] })
     else if b.getPiece (cur.1 + d.1) (cur.2 + d.2) = BLACK then { st with tB := true }
     else { st with tW := true })
  else st

/-- The `while(!q.empty())` territory BFS of `GoRule::calculateScore`,
fuel-indexed (each pass dequeues one cell; every enqueued cell was freshly
marked, so `size*size + 1` units of fuel dominate the C++ loop). -/
def floodFill (b : Board) : Nat → FloodState → FloodState
  | 0, st => st
  | Nat.succ fuel, st =>
    match st.queue with
    | [] => st
    | cur :: rest => floodFill b fuel (goDirs.foldl (floodStep b cur) { st with queue := rest })

/-- One cell of the scoring sweep of `GoRule::calculateScore`: checked cells
are skipped; a stone scores one point for its color and is marked; an
unchecked empty cell launches the territory BFS and credits the region to
the color it exclusively touches. -/
def goScoreStep (b : Board) (st : Finset (Int × Int) × ℚ × ℚ) (c : Int × Int) :
    Finset (Int × Int) × ℚ × ℚ :=
  if c ∈ st.1 then st
  else if b.getPiece c.1 c.2 = BLACK then (insert c st.1, st.2.1 + 1, st.2.2)
  else if b.getPiece c.1 c.2 = WHITE then (insert c st.1, st.2.1, st.2.2 + 1)
  else
    (let ff := floodFill b (b.size * b.size + 1)
      { queue := [c], checked := insert c st.1, terr := [c], tB := false, tW := false }
     if ff.tB = true ∧ ff.tW = false then (ff.checked, st.2.1 + (ff.terr.length : ℚ), st.2.2)
     else if ff.tB = false ∧ ff.tW = true then (ff.checked, st.2.1, st.2.2 + (ff.terr.length : ℚ))
     else (ff.checked, st.2.1, st.2.2))

/-- `GoRule::calculateScore` (HW2) / `GoRule::calculateFinalScore` (HW1):
area scoring sweep — one point per stone, flood-filled empty regions credited
to the single color they touch — followed by the unconditional `whiteScore +=
3.75` compensation. -/
def GoRule.calculateScore (b : Board) : ℚ × ℚ :=
  let final := (rowMajorCells b).foldl (goScoreStep b)
    ((∅ : Finset (Int × Int)), (0 : ℚ), (0 : ℚ))
  (final.2.1, final.2.2 + 15 / 4)

/-- The four scan axes of `GomokuRule::checkWin`, in source order
`{{1, 0}, {0, 1}, {1, 1}, {1, -1}}`. -/
def gomokuDirs : List (Int × Int) := [(1, 0), (0, 1), (1, 1), (1, -1)]

/-- The bounded consecutive-match scan of `GomokuRule::checkWin`: how many of
the cells `(x + i*dx, y + i*dy)`, `i = 1, 2, ...`, hold `c` before the first
mismatch, counting at most `fuel` cells (the source loop uses `i < 5`,
i.e. fuel 4, per half-line). -/
def consec (b : Board) (c : Piece) : Int → Int → Int → Int → Nat → Nat
  | _, _, _, _, 0 => 0
  | x, y, dx, dy, Nat.succ n =>
    if b.getPiece (x + dx) (y + dy) = c then 1 + consec b c (x + dx) (y + dy) dx dy n
    else 0

/-- Winner status for the color of the just-played stone. -/
def winStatus (c : Piece) : GameStatus :=
  if c = BLACK then BLACK_WIN else WHITE_WIN

/-- `GomokuRule::checkWin`: pass sentinel and empty cells report `PLAYING`;
otherwise each of the four axes counts `1 +` up to four forward `+` up to
four backward contiguous same-color cells and `count >= 5` wins; with no
winning axis, a full board is a `DRAW` and anything else `PLAYING`. -/
def GomokuRule.checkWin (b : Board) (x y : Int) : GameStatus :=
  if x = -1 ∧ y = -1 then PLAYING
  else if b.getPiece x y = EMPTY then PLAYING
  else if gomokuDirs.any (fun d =>
      decide (5 ≤ 1 + consec b (b.getPiece x y) x y d.1 d.2 4
        + consec b (b.getPiece x y) x y (-d.1) (-d.2) 4)) then
    winStatus (b.getPiece x y)
  else if (rowMajorCells b).any (fun q => decide (b.getPiece q.1 q.2 = EMPTY)) then PLAYING
  else DRAW

/-- The eight scan directions of the Reversi rules, in source order
`dx[] = {0,0,1,-1,1,1,-1,-1}; dy[] = {1,-1,0,0,1,-1,1,-1}`. -/
def reversiDirs : List (Int × Int) :=
  [(0, 1), (0, -1), (1, 0), (-1, 0), (1, 1), (1, -1), (-1, 1), (-1, -1)]

/-- The `while (true)` walk of `ReversiRule::checkDirection` (validity mode,
`flip = false`): step `i` looks at `(x + i*dx, y + i*dy)`; out-of-bounds or
empty ends the walk with `false`; an opponent stone records `hasOpponent` and
continues; the player's own stone returns `hasOpponent`.  Fuel dominates the
walk length (`size + 1` steps always leave the board). -/
def ReversiRule.checkDirection (b : Board) (player opp : Piece) (x y dx dy : Int) :
    Nat → Int → Bool → Bool
  | 0, _, _ => false
  | Nat.succ fuel, i, hasOpp =>
    if b.isValidBounds (x + i * dx) (y + i * dy) then
      (if b.getPiece (x + i * dx) (y + i * dy) = EMPTY then false
       else if b.getPiece (x + i * dx) (y + i * dy) = opp then
         ReversiRule.checkDirection b player opp x y dx dy fuel (i + 1) true
       else if b.getPiece (x + i * dx) (y + i * dy) = player then hasOpp
       else ReversiRule.checkDirection b player opp x y dx dy fuel (i + 1) hasOpp)
    else false

/-- `ReversiRule::isValidMove`: an empty in-bounds cell such that some
direction brackets an opponent run. -/
def ReversiRule.isValidMove (b : Board) (x y : Int) (player : Piece) : Bool :=
  decide (b.isValidBounds x y ∧ b.getPiece x y = EMPTY) &&
    reversiDirs.any (fun d =>
      ReversiRule.checkDirection b player (getOpponent player) x y d.1 d.2 (b.size + 1) 1 false)

/-- `GameRule::hasValidMove` specialised to the Reversi rules: an exhaustive
row-major scan for a legal coordinate. -/
def ReversiRule.hasValidMove (b : Board) (player : Piece) : Bool :=
  (rowMajorCells b).any (fun q => ReversiRule.isValidMove b q.1 q.2 player)

/-- `ReversiRule::checkWin`: decides only full boards, by comparing stone
counts; any board with an empty cell reports `PLAYING`. -/
def ReversiRule.checkWin (b : Board) : GameStatus :=
  if b.countPieces EMPTY = 0 then
    (if b.countPieces WHITE < b.countPieces BLACK then BLACK_WIN
     else if b.countPieces BLACK < b.countPieces WHITE then WHITE_WIN
     else DRAW)
  else PLAYING

/-- The per-node data of `struct MCTSNode` touched by backpropagation and the
final decision (`move`, `playerMoved`, `visits`, `wins`). -/
structure MCTSNode where
  move : Int × Int
  playerMoved : Piece
  visits : Nat
  wins : ℚ
deriving DecidableEq, Repr

/-- The outcome scalar of `AIPlayer::getMCTSMove`: `result = 1.0` for a black
win, `0.0` for a white win, `0.5` otherwise. -/
def simResult (status : GameStatus) : ℚ :=
  if status = BLACK_WIN then 1
  else if status = WHITE_WIN then 0
  else 1 / 2

/-- The backpropagation walk (`while(node != nullptr)`), with the
node-to-root parent chain represented as a list: each node on the chain gets
`visits++` and `wins +=` the outcome oriented to its own mover. -/
def backpropagate (result : ℚ) : List MCTSNode → List MCTSNode
  | [] => []
  | n :: rest =>
    { n with visits := n.visits + 1,
             wins := n.wins + (if n.playerMoved = BLACK then result else 1 - result) }
      :: backpropagate result rest

/-- The final-decision scan of `AIPlayer::getMCTSMove`: fold over the root's
children keeping `(bestMove, maxVisits)`, starting from `({-1,-1}, -1)` and
replacing on strictly greater visit count. -/
def bestChildFold : List MCTSNode → (Int × Int) × Int → (Int × Int) × Int
  | [], acc => acc
  | c :: rest, acc =>
    if acc.2 < (c.visits : Int) then bestChildFold rest (c.move, (c.visits : Int))
    else bestChildFold rest acc

/-- The move returned after the iteration loop: the first child attaining the
maximal visit count, or the pass sentinel `(-1,-1)` if there are no children. -/
def finalDecision (children : List MCTSNode) : Int × Int :=
  (bestChildFold children ((-1, -1), -1)).1

/-- `PieceType` as serialized by `operator<<` (its enum value). -/
def pieceVal : Piece → Nat
  | EMPTY => 0
  | BLACK => 1
  | WHITE => 2

/-- `static_cast<PieceType>(temp)` for the values a well-formed save holds. -/
def natToPiece : Nat → Piece
  | 1 => BLACK
  | 2 => WHITE
  | _ => EMPTY

/-- `Board::serialize`: the size followed by the row-major cell values, as
the stream of whitespace-separated integer tokens it prints. -/
def Board.serialize (b : Board) : List Nat :=
  b.size :: ((List.range b.size).map
    (fun i => (List.range b.size).map (fun j => pieceVal ((b.grid.getD i []).getD j EMPTY)))).flatten

/-- `Board::deserialize` applied to a freshly constructed board (the load
paths construct the `Board` before deserializing into it): read the size,
resize the grid — every row becomes a fresh `vector<PieceType>(size)` — and
fill cell `(i, j)` with token `i*size + j` of the remaining stream. -/
def Board.deserialize (ts : List Nat) : Board :=
  { size := ts.headD 0,
    grid := (List.range (ts.headD 0)).map
      (fun i => (List.range (ts.headD 0)).map
        (fun j => natToPiece (ts.tail.getD (i * ts.headD 0 + j) 0))) }

/-- Empty in-bounds cells orthogonally adjacent to some stone of `grp`: the
true liberties of the group. -/
def libertyCells (b : Board) (grp : List (Int × Int)) : Finset (Int × Int) :=
  (validCells b).filter
    (fun q => b.getPiece q.1 q.2 = EMPTY ∧ ∃ s ∈ grp, ∃ d ∈ goDirs, q = (s.1 + d.1, s.2 + d.2))

/-- Claim C4 as stated: Flip-Capture's `terminalStatus` reports a decided game
exactly when the board is full, or one color has zero stones, or neither
color has a legal move, the winner then being the strictly larger stone
count (equal counts a draw). -/
def c4ClaimStatement : Prop :=
  ∀ b : Board,
    ((ReversiRule.checkWin b ≠ PLAYING) ↔
      (b.countPieces EMPTY = 0 ∨ b.countPieces BLACK = 0 ∨ b.countPieces WHITE = 0
        ∨ (ReversiRule.hasValidMove b BLACK = false ∧ ReversiRule.hasValidMove b WHITE = false)))
    ∧ ((b.countPieces EMPTY = 0 ∨ b.countPieces BLACK = 0 ∨ b.countPieces WHITE = 0
        ∨ (ReversiRule.hasValidMove b BLACK = false ∧ ReversiRule.hasValidMove b WHITE = false)) →
      ReversiRule.checkWin b =
        (if b.countPieces WHITE < b.countPieces BLACK then BLACK_WIN
         else if b.countPieces BLACK < b.countPieces WHITE then WHITE_WIN
         else DRAW))

/-- Claim C5 as stated: some board and seed stone exist whose liberty tally
strictly exceeds the group's number of distinct adjacent empty cells. -/
def c5ClaimStatement : Prop :=
  ∃ (b : Board) (x y : Int) (c : Piece),
    b.getPiece x y = c ∧ c ≠ EMPTY ∧
      (libertyCells b (GoRule.getLiberties b x y c).group).card
        < (GoRule.getLiberties b x y c).libs

/-- 2×2 board with black stones at (0,1) and (1,0): white at (0,0) is a
non-capturing suicide. -/
def goSuicideBoard : Board := ⟨2, [[EMPTY, BLACK], [BLACK, EMPTY]]⟩

/-- 2×2 board with a white stone at (0,1) and a black stone at (1,1): black
at (0,0) captures the white stone. -/
def goCaptureBoard : Board := ⟨2, [[EMPTY, WHITE], [EMPTY, BLACK]]⟩

/-- 2×2 board with a single black stone: white has zero stones, neither side
has a bracketing move, yet the board is not full. -/
def reversiLoneStoneBoard : Board := ⟨2, [[BLACK, EMPTY], [EMPTY, EMPTY]]⟩

/-- A full 1×1 board. -/
def reversiFullBoard : Board := ⟨1, [[BLACK]]⟩

/-- 2×2 board with a black group of three stones around the single empty
cell (1,1), which is adjacent to two stones of the group. -/
def goGroupBoard : Board := ⟨2, [[BLACK, BLACK], [BLACK, EMPTY]]⟩

/-- 5×5 board whose top row is five black stones. -/
def gomokuRowBoard : Board :=
  ⟨5, [[BLACK, BLACK, BLACK, BLACK, BLACK],
       [EMPTY, EMPTY, EMPTY, EMPTY, EMPTY],
       [EMPTY, EMPTY, EMPTY, EMPTY, EMPTY],
       [EMPTY, EMPTY, EMPTY, EMPTY, EMPTY],
       [EMPTY, EMPTY, EMPTY, EMPTY, EMPTY]]⟩

/-- A small mixed board for the serialization round trip. -/
def roundTripBoard : Board := ⟨2, [[BLACK, EMPTY], [WHITE, WHITE]]⟩

/-- A two-node backpropagation path. -/
def samplePath : List MCTSNode := [⟨(0, 0), BLACK, 3, 2⟩, ⟨(1, 1), WHITE, 5, 1⟩]

/-- Two root children with distinct visit counts. -/
def sampleChildren : List MCTSNode := [⟨(1, 1), BLACK, 5, 0⟩, ⟨(2, 2), WHITE, 9, 0⟩]

/-! ## List and board helper lemmas -/

theorem listSetOOB {α : Type} : ∀ (l : List α) (i : Nat) (a : α), l.length ≤ i → l.set i a = l
  | [], _, _, _ => rfl
  | _ :: _, 0, _, h => absurd h (by simp)
  | x :: t, Nat.succ i, a, h => by
    simp only [List.set_cons_succ, List.cons.injEq, true_and]
    exact listSetOOB t i a (by simpa using h)

theorem listSetOfGetD {α : Type} : ∀ (l : List α) (i : Nat) (d : α), l.set i (l.getD i d) = l
  | [], _, _ => rfl
  | x :: t, 0, d => by simp
  | x :: t, Nat.succ i, d => by
    simp only [List.getD_cons_succ, List.set_cons_succ, List.cons.injEq, true_and]
    exact listSetOfGetD t i d

theorem listGetDSetSelf {α : Type} : ∀ (l : List α) (i : Nat) (a d : α), i < l.length →
    (l.set i a).getD i d = a
  | [], i, _, _, h => absurd h (by simp)
  | x :: t, 0, a, d, _ => rfl
  | x :: t, Nat.succ i, a, d, h => by
    simp only [List.set_cons_succ, List.getD_cons_succ]
    exact listGetDSetSelf t i a d (by simpa using h)

theorem listGetDSetNe {α : Type} : ∀ (l : List α) (i j : Nat) (a d : α), i ≠ j →
    (l.set i a).getD j d = l.getD j d
  | [], _, _, _, _, _ => rfl
  | x :: t, 0, 0, a, d, h => absurd rfl h
  | x :: t, 0, Nat.succ j, a, d, _ => rfl
  | x :: t, Nat.succ i, 0, a, d, _ => rfl
  | x :: t, Nat.succ i, Nat.succ j, a, d, h => by
    simp only [List.set_cons_succ, List.getD_cons_succ]
    exact listGetDSetNe t i j a d (by omega)

theorem listMemSet {α : Type} : ∀ (l : List α) (i : Nat) (a r : α), r ∈ l.set i a →
    r = a ∨ r ∈ l
  | [], _, _, _, h => Or.inr h
  | x :: t, 0, a, r, h => by
    rcases List.mem_cons.mp h with h | h
    · exact Or.inl h
    · exact Or.inr (List.mem_cons_of_mem _ h)
  | x :: t, Nat.succ i, a, r, h => by
    rcases List.mem_cons.mp h with h | h
    · exact Or.inr (h ▸ List.mem_cons_self _ _)
    · rcases listMemSet t i a r h with h | h
      · exact Or.inl h
      · exact Or.inr (List.mem_cons_of_mem _ h)

theorem listGetDMem {α : Type} : ∀ (l : List α) (i : Nat) (d : α), i < l.length →
    l.getD i d ∈ l
  | [], i, _, h => absurd h (by simp)
  | x :: t, 0, d, _ => List.mem_cons_self _ _
  | x :: t, Nat.succ i, d, h =>
    List.mem_cons_of_mem _ (listGetDMem t i d (by simpa using h))

theorem Board.size_setPiece (b : Board) (x y : Int) (p : Piece) :
    (b.setPiece x y p).size = b.size := by
  unfold Board.setPiece; split <;> rfl

theorem Board.isValidBounds_setPiece (b : Board) (x y u v : Int) (p : Piece) :
    (b.setPiece x y p).isValidBounds u v ↔ b.isValidBounds u v := by
  unfold Board.isValidBounds
  rw [Board.size_setPiece]

theorem Board.WF_setPiece (b : Board) (x y : Int) (p : Piece) (h : b.WF) :
    (b.setPiece x y p).WF := by
  obtain ⟨h1, h2⟩ := h
  unfold Board.setPiece
  split
  next hb =>
    have hx : x.toNat < b.grid.length := by
      obtain ⟨hb1, hb2, _, _⟩ := hb
      omega
    refine ⟨by simpa using h1, ?_⟩
    intro r hr
    rcases listMemSet _ _ _ _ hr with hr | hr
    · subst hr
      rw [List.length_set]
      exact h2 _ (listGetDMem _ _ _ hx)
    · exact h2 _ hr
  next => exact ⟨h1, h2⟩

theorem Board.setPiece_revert (b : Board) (x y : Int) (p : Piece)
    (he : b.getPiece x y = EMPTY) :
    (b.setPiece x y p).setPiece x y EMPTY = b := by
  by_cases hb : b.isValidBounds x y
  · have hb2 : (b.setPiece x y p).isValidBounds x y :=
      (Board.isValidBounds_setPiece b x y x y p).mpr hb
    unfold Board.setPiece
    rw [if_pos hb, if_pos (by simpa [Board.setPiece, if_pos hb] using hb2)]
    have he2 : (b.grid.getD x.toNat []).getD y.toNat EMPTY = EMPTY := by
      unfold Board.getPiece at he
      rwa [if_pos hb] at he
    by_cases hx : x.toNat < b.grid.length
    · cases b with
      | mk size grid =>
        simp only [Board.mk.injEq, true_and]
        rw [listGetDSetSelf _ _ _ _ hx, List.set_set]
        calc (grid.set x.toNat (((grid.getD x.toNat []).set y.toNat p).set y.toNat EMPTY))
            = grid.set x.toNat ((grid.getD x.toNat []).set y.toNat EMPTY) := by
              rw [List.set_set]
          _ = grid.set x.toNat (grid.getD x.toNat []) := by rw [← he2, listSetOfGetD]
          _ = grid := listSetOfGetD _ _ _
    · cases b with
      | mk size grid =>
        simp only [Board.mk.injEq, true_and]
        have hl : grid.length ≤ x.toNat := by simpa using Nat.le_of_not_lt hx
        rw [listSetOOB _ _ _ hl, listSetOOB _ _ _ hl]
  · unfold Board.setPiece
    rw [if_neg hb, if_neg hb]

/-- C1: For every board, coordinate and color, the Territory-Capture legality
check `GoRule::isValidMove` returns with the board exactly equal, cell for
cell, to its state before the call: the speculative placement is always
reverted, whether the answer is legal or illegal. -/
theorem c1_go_isValidMove_restores_board (b : Board) (x y : Int) (player : Piece) :
    (GoRule.isValidMove b x y player).2 = b := by
  unfold GoRule.isValidMove
  by_cases h : b.isValidBounds x y ∧ b.getPiece x y = EMPTY
  · rw [if_pos h]
    exact Board.setPiece_revert b x y player h.2
  · rw [if_neg h]

/-- C2: On an empty in-bounds cell, Territory-Capture's `isValidMove` is legal
whenever the speculative placement leaves some orthogonally adjacent opponent
group with liberty tally zero (a capture, legal regardless of the mover's own
liberties), and is illegal exactly when no such capture exists and the
mover's own group has liberty tally zero (suicide). -/
theorem c2_go_isValidMove_capture_suicide (b : Board) (x y : Int) (player : Piece)
    (hb : b.isValidBounds x y) (he : b.getPiece x y = EMPTY) :
    ((∃ d ∈ goDirs, goCaptureAt (b.setPiece x y player) x y (getOpponent player) d) →
      (GoRule.isValidMove b x y player).1 = true)
    ∧ ((GoRule.isValidMove b x y player).1 = false ↔
      (¬ ∃ d ∈ goDirs, goCaptureAt (b.setPiece x y player) x y (getOpponent player) d)
        ∧ (GoRule.getLiberties (b.setPiece x y player) x y player).libs = 0) := by
  unfold GoRule.isValidMove
  rw [if_pos ⟨hb, he⟩]
  dsimp only
  have hany : (goDirs.any fun d =>
        decide (goCaptureAt (b.setPiece x y player) x y (getOpponent player) d)) = true
      ↔ ∃ d ∈ goDirs, goCaptureAt (b.setPiece x y player) x y (getOpponent player) d := by
    simp [List.any_eq_true]
  cases hc : (goDirs.any fun d =>
      decide (goCaptureAt (b.setPiece x y player) x y (getOpponent player) d)) with
  | true =>
    have hex := hany.mp hc
    constructor
    · intro _
      simp [hc]
    · simp [hc, hex]
  | false =>
    have hnex : ¬ ∃ d ∈ goDirs, goCaptureAt (b.setPiece x y player) x y (getOpponent player) d := by
      intro hex
      rw [← hany, hc] at hex
      exact Bool.false_ne_true hex
    constructor
    · intro hex
      exact absurd hex hnex
    · simp [hc, hnex]

/-- Witness for C2: on `goSuicideBoard`, white's play at (0,0) captures
nothing and self-strangles, so it is rejected. -/
theorem c2_go_isValidMove_capture_suicide_witness :
    (GoRule.isValidMove goSuicideBoard 0 0 WHITE).1 = false :=
  (c2_go_isValidMove_capture_suicide goSuicideBoard 0 0 WHITE (by decide) (by decide)).2.mpr
    ⟨by decide, by decide⟩
theorem dfs_vis_mono (b : Board) (color : Piece) (fuel : Nat) :
    ∀ (x y : Int) (vis : Finset (Int × Int)) (grp : List (Int × Int)),
      vis ⊆ (countLibertiesDFS b color fuel x y vis grp).visited := by
  induction fuel with
  | zero => intro x y vis grp; simp [countLibertiesDFS]
  | succ fuel ih =>
    intro x y vis grp
    simp only [countLibertiesDFS]
    split
    · split
      · exact Finset.Subset.refl vis
      · split
        · exact Finset.subset_insert _ _
        · split
          · dsimp only
            set r1 := countLibertiesDFS b color fuel x (y + 1) (insert (x, y) vis) (grp ++ [(x, y)]) with hr1
            set r2 := countLibertiesDFS b color fuel x (y - 1) r1.visited r1.group with hr2
            set r3 := countLibertiesDFS b color fuel (x + 1) y r2.visited r2.group with hr3
            set r4 := countLibertiesDFS b color fuel (x - 1) y r3.visited r3.group with hr4
            have m1 := ih x (y + 1) (insert (x, y) vis) (grp ++ [(x, y)])
            have m2 := ih x (y - 1) r1.visited r1.group
            have m3 := ih (x + 1) y r2.visited r2.group
            have m4 := ih (x - 1) y r3.visited r3.group
            rw [← hr1] at m1
            rw [← hr2] at m2
            rw [← hr3] at m3
            rw [← hr4] at m4
            exact Finset.Subset.trans (Finset.subset_insert (x, y) vis)
              (Finset.Subset.trans m1 (Finset.Subset.trans m2 (Finset.Subset.trans m3 m4)))
          · exact Finset.subset_insert _ _
    · exact Finset.Subset.refl vis

theorem mem_validCells {b : Board} {x y : Int} :
    (x, y) ∈ validCells b ↔ b.isValidBounds x y := by
  unfold validCells Board.isValidBounds
  simp only [Finset.mem_image, Finset.mem_product, Finset.mem_range, Prod.exists]
  constructor
  · rintro ⟨i, j, ⟨hi, hj⟩, h⟩
    obtain ⟨h1, h2⟩ := Prod.mk.injEq .. ▸ h
    subst h1; subst h2
    exact ⟨by positivity, by exact_mod_cast hi, by positivity, by exact_mod_cast hj⟩
  · rintro ⟨h1, h2, h3, h4⟩
    exact ⟨x.toNat, y.toNat, ⟨by omega, by omega⟩, by
      simp [Int.toNat_of_nonneg h1, Int.toNat_of_nonneg h3]⟩

theorem dfs_vis_super (b : Board) (color : Piece) (fuel : Nat) :
    ∀ (x y : Int) (vis : Finset (Int × Int)) (grp : List (Int × Int)),
      (countLibertiesDFS b color fuel x y vis grp).visited ⊆ vis ∪ validCells b := by
  induction fuel with
  | zero => intro x y vis grp; simp only [countLibertiesDFS]; exact Finset.subset_union_left
  | succ fuel ih =>
    intro x y vis grp
    simp only [countLibertiesDFS]
    split
    next hbnd =>
      have hins : insert (x, y) vis ⊆ vis ∪ validCells b := by
        intro q hq
        rcases Finset.mem_insert.mp hq with hq | hq
        · subst hq
          exact Finset.mem_union_right _ (mem_validCells.mpr hbnd)
        · exact Finset.mem_union_left _ hq
      split
      · exact Finset.subset_union_left
      · split
        · exact hins
        · split
          · dsimp only
            set r1 := countLibertiesDFS b color fuel x (y + 1) (insert (x, y) vis) (grp ++ [(x, y)]) with hr1
            set r2 := countLibertiesDFS b color fuel x (y - 1) r1.visited r1.group with hr2
            set r3 := countLibertiesDFS b color fuel (x + 1) y r2.visited r2.group with hr3
            set r4 := countLibertiesDFS b color fuel (x - 1) y r3.visited r3.group with hr4
            have m1 := ih x (y + 1) (insert (x, y) vis) (grp ++ [(x, y)])
            have m2 := ih x (y - 1) r1.visited r1.group
            have m3 := ih (x + 1) y r2.visited r2.group
            have m4 := ih (x - 1) y r3.visited r3.group
            rw [← hr1] at m1
            rw [← hr2] at m2
            rw [← hr3] at m3
            rw [← hr4] at m4
            refine Finset.Subset.trans m4 (Finset.union_subset ?_ Finset.subset_union_right)
            refine Finset.Subset.trans m3 (Finset.union_subset ?_ Finset.subset_union_right)
            refine Finset.Subset.trans m2 (Finset.union_subset ?_ Finset.subset_union_right)
            exact Finset.Subset.trans m1 (Finset.union_subset hins Finset.subset_union_right)
          · exact hins
    next => exact Finset.subset_union_left

theorem dfs_group_sub (b : Board) (color : Piece) (fuel : Nat) :
    ∀ (x y : Int) (vis : Finset (Int × Int)) (grp : List (Int × Int)),
      ∀ q ∈ grp, q ∈ (countLibertiesDFS b color fuel x y vis grp).group := by
  induction fuel with
  | zero => intro x y vis grp q hq; simpa [countLibertiesDFS] using hq
  | succ fuel ih =>
    intro x y vis grp q hq
    simp only [countLibertiesDFS]
    split
    · split
      · exact hq
      · split
        · exact hq
        · split
          · dsimp only
            set r1 := countLibertiesDFS b color fuel x (y + 1) (insert (x, y) vis) (grp ++ [(x, y)]) with hr1
            set r2 := countLibertiesDFS b color fuel x (y - 1) r1.visited r1.group with hr2
            set r3 := countLibertiesDFS b color fuel (x + 1) y r2.visited r2.group with hr3
            have g1 := ih x (y + 1) (insert (x, y) vis) (grp ++ [(x, y)]) q
              (List.mem_append_left _ hq)
            rw [← hr1] at g1
            have g2 := ih x (y - 1) r1.visited r1.group q g1
            rw [← hr2] at g2
            have g3 := ih (x + 1) y r2.visited r2.group q g2
            rw [← hr3] at g3
            exact ih (x - 1) y r3.visited r3.group q g3
          · exact hq
    · exact hq

theorem dfs_seed_visited (b : Board) (color : Piece) (fuel : Nat) (x y : Int)
    (vis : Finset (Int × Int)) (grp : List (Int × Int))
    (hf : 1 ≤ fuel) (hbnd : b.isValidBounds x y) :
    (x, y) ∈ (countLibertiesDFS b color fuel x y vis grp).visited := by
  cases fuel with
  | zero => omega
  | succ fuel =>
    simp only [countLibertiesDFS]
    rw [if_pos hbnd]
    split
    next hv => exact hv
    next hv =>
      split
      · exact Finset.mem_insert_self _ _
      · split
        · dsimp only
          set r1 := countLibertiesDFS b color fuel x (y + 1) (insert (x, y) vis) (grp ++ [(x, y)]) with hr1
          set r2 := countLibertiesDFS b color fuel x (y - 1) r1.visited r1.group with hr2
          set r3 := countLibertiesDFS b color fuel (x + 1) y r2.visited r2.group with hr3
          have m1 := dfs_vis_mono b color fuel x (y + 1) (insert (x, y) vis) (grp ++ [(x, y)])
          rw [← hr1] at m1
          have m2 := dfs_vis_mono b color fuel x (y - 1) r1.visited r1.group
          rw [← hr2] at m2
          have m3 := dfs_vis_mono b color fuel (x + 1) y r2.visited r2.group
          rw [← hr3] at m3
          have m4 := dfs_vis_mono b color fuel (x - 1) y r3.visited r3.group
          exact m4 (m3 (m2 (m1 (Finset.mem_insert_self _ _))))
        · exact Finset.mem_insert_self _ _

theorem dfs_group_mem (b : Board) (color : Piece) (fuel : Nat) :
    ∀ (x y : Int) (vis : Finset (Int × Int)) (grp : List (Int × Int)),
      ∀ q ∈ (countLibertiesDFS b color fuel x y vis grp).group,
        q ∈ grp ∨ (b.isValidBounds q.1 q.2 ∧ b.getPiece q.1 q.2 = color
          ∧ q ∈ (countLibertiesDFS b color fuel x y vis grp).visited ∧ q ∉ vis) := by
  induction fuel with
  | zero => intro x y vis grp q hq; exact Or.inl hq
  | succ fuel ih =>
    intro x y vis grp q hq
    rw [countLibertiesDFS] at hq ⊢
    split at hq
    next hbnd =>
      split at hq
      · exact Or.inl hq
      next hv =>
        split at hq
        · exact Or.inl hq
        next hne =>
          split at hq
          next hcol =>
            rw [if_pos hbnd, if_neg hv, if_neg hne, if_pos hcol]
            dsimp only at hq ⊢
            set r1 := countLibertiesDFS b color fuel x (y + 1) (insert (x, y) vis) (grp ++ [(x, y)]) with hr1
            set r2 := countLibertiesDFS b color fuel x (y - 1) r1.visited r1.group with hr2
            set r3 := countLibertiesDFS b color fuel (x + 1) y r2.visited r2.group with hr3
            set r4 := countLibertiesDFS b color fuel (x - 1) y r3.visited r3.group with hr4
            -- monotonicity facts
            have m1 := dfs_vis_mono b color fuel x (y + 1) (insert (x, y) vis) (grp ++ [(x, y)])
            rw [← hr1] at m1
            have m2 := dfs_vis_mono b color fuel x (y - 1) r1.visited r1.group
            rw [← hr2] at m2
            have m3 := dfs_vis_mono b color fuel (x + 1) y r2.visited r2.group
            rw [← hr3] at m3
            have m4 := dfs_vis_mono b color fuel (x - 1) y r3.visited r3.group
            rw [← hr4] at m4
            have hxy : (x, y) ∈ r4.visited :=
              m4 (m3 (m2 (m1 (Finset.mem_insert_self _ _))))
            -- peel the four calls from the inside out
            have i4 := ih (x - 1) y r3.visited r3.group q
            rw [← hr4] at i4
            rcases i4 hq with hq3 | ⟨hb4, hc4, hv4, hnv4⟩
            · have i3 := ih (x + 1) y r2.visited r2.group q
              rw [← hr3] at i3
              rcases i3 hq3 with hq2 | ⟨hb3, hc3, hv3, hnv3⟩
              · have i2 := ih x (y - 1) r1.visited r1.group q
                rw [← hr2] at i2
                rcases i2 hq2 with hq1 | ⟨hb2, hc2, hv2, hnv2⟩
                · have i1 := ih x (y + 1) (insert (x, y) vis) (grp ++ [(x, y)]) q
                  rw [← hr1] at i1
                  rcases i1 hq1 with hq0 | ⟨hb1, hc1, hv1, hnv1⟩
                  · rcases List.mem_append.mp hq0 with hq0 | hq0
                    · exact Or.inl hq0
                    · have : q = (x, y) := by simpa using hq0
                      subst this
                      exact Or.inr ⟨hbnd, by assumption, hxy, hv⟩
                  · exact Or.inr ⟨hb1, hc1, m4 (m3 (m2 hv1)),
                      fun h => hnv1 (Finset.mem_insert_of_mem h)⟩
                · exact Or.inr ⟨hb2, hc2, m4 (m3 hv2),
                    fun h => hnv2 (m1 (Finset.mem_insert_of_mem h))⟩
              · exact Or.inr ⟨hb3, hc3, m4 hv3,
                  fun h => hnv3 (m2 (m1 (Finset.mem_insert_of_mem h)))⟩
            · exact Or.inr ⟨hb4, hc4, hv4,
                fun h => hnv4 (m3 (m2 (m1 (Finset.mem_insert_of_mem h))))⟩
          · exact Or.inl hq
    · exact Or.inl hq

theorem dfs_libs_card (b : Board) (color : Piece) (fuel : Nat) :
    ∀ (x y : Int) (vis : Finset (Int × Int)) (grp : List (Int × Int)),
      ((countLibertiesDFS b color fuel x y vis grp).visited.filter
          (fun q => b.getPiece q.1 q.2 = EMPTY)).card
        = (countLibertiesDFS b color fuel x y vis grp).libs
          + (vis.filter (fun q => b.getPiece q.1 q.2 = EMPTY)).card := by
  induction fuel with
  | zero => intro x y vis grp; simp [countLibertiesDFS]
  | succ fuel ih =>
    intro x y vis grp
    rw [countLibertiesDFS]
    split
    next hbnd =>
      split
      next hv => simp
      next hv =>
        split
        next hE =>
          dsimp only
          rw [Finset.filter_insert, if_pos hE,
            Finset.card_insert_of_not_mem (fun h => hv (Finset.mem_of_mem_filter _ h))]
          omega
        next hne =>
          split
          next hcol =>
            dsimp only
            set r1 := countLibertiesDFS b color fuel x (y + 1) (insert (x, y) vis) (grp ++ [(x, y)]) with hr1
            set r2 := countLibertiesDFS b color fuel x (y - 1) r1.visited r1.group with hr2
            set r3 := countLibertiesDFS b color fuel (x + 1) y r2.visited r2.group with hr3
            set r4 := countLibertiesDFS b color fuel (x - 1) y r3.visited r3.group with hr4
            have c1 := ih x (y + 1) (insert (x, y) vis) (grp ++ [(x, y)])
            rw [← hr1] at c1
            have c2 := ih x (y - 1) r1.visited r1.group
            rw [← hr2] at c2
            have c3 := ih (x + 1) y r2.visited r2.group
            rw [← hr3] at c3
            have c4 := ih (x - 1) y r3.visited r3.group
            rw [← hr4] at c4
            have hfi : ((insert (x, y) vis).filter (fun q => b.getPiece q.1 q.2 = EMPTY)).card
                = (vis.filter (fun q => b.getPiece q.1 q.2 = EMPTY)).card := by
              rw [Finset.filter_insert, if_neg hne]
            omega
          next hcol =>
            dsimp only
            rw [Finset.filter_insert, if_neg hne]
            omega
    next => simp

theorem dfs_empty_adj (b : Board) (color : Piece) (fuel : Nat) :
    ∀ (x y : Int) (vis : Finset (Int × Int)) (grp : List (Int × Int)) (q : Int × Int),
      q ∈ (countLibertiesDFS b color fuel x y vis grp).visited → q ∉ vis →
      b.getPiece q.1 q.2 = EMPTY →
      q = (x, y) ∨ ∃ s ∈ (countLibertiesDFS b color fuel x y vis grp).group,
        ∃ d ∈ goDirs, q = (s.1 + d.1, s.2 + d.2) := by
  induction fuel with
  | zero => intro x y vis grp q hq hnv _; exact absurd hq hnv
  | succ fuel ih =>
    intro x y vis grp q hq hnv hqE
    rw [countLibertiesDFS] at hq ⊢
    split at hq
    next hbnd =>
      split at hq
      · exact absurd hq hnv
      next hv =>
        split at hq
        next hE =>
          rcases Finset.mem_insert.mp hq with h | h
          · exact Or.inl h
          · exact absurd h hnv
        next hne =>
          split at hq
          next hcol =>
            rw [if_pos hbnd, if_neg hv, if_neg hne, if_pos hcol]
            dsimp only at hq ⊢
            set r1 := countLibertiesDFS b color fuel x (y + 1) (insert (x, y) vis) (grp ++ [(x, y)]) with hr1
            set r2 := countLibertiesDFS b color fuel x (y - 1) r1.visited r1.group with hr2
            set r3 := countLibertiesDFS b color fuel (x + 1) y r2.visited r2.group with hr3
            set r4 := countLibertiesDFS b color fuel (x - 1) y r3.visited r3.group with hr4
            -- group monotonicity along the chain
            have s2 := dfs_group_sub b color fuel x (y - 1) r1.visited r1.group
            rw [← hr2] at s2
            have s3 := dfs_group_sub b color fuel (x + 1) y r2.visited r2.group
            rw [← hr3] at s3
            have s4 := dfs_group_sub b color fuel (x - 1) y r3.visited r3.group
            rw [← hr4] at s4
            have s1 := dfs_group_sub b color fuel x (y + 1) (insert (x, y) vis) (grp ++ [(x, y)])
            rw [← hr1] at s1
            have hxy4 : (x, y) ∈ r4.group :=
              s4 _ (s3 _ (s2 _ (s1 _ (List.mem_append_right _ (List.mem_singleton_self _)))))
            have hqxy : q ≠ (x, y) := by
              intro h
              subst h
              exact hne hqE
            by_cases h1 : q ∈ r1.visited
            · have h0 : q ∉ insert (x, y) vis := by
                intro h
                rcases Finset.mem_insert.mp h with h | h
                · exact hqxy h
                · exact hnv h
              have := ih x (y + 1) (insert (x, y) vis) (grp ++ [(x, y)]) q (hr1 ▸ h1) h0 hqE
              rw [← hr1] at this
              rcases this with h | ⟨s, hs, d, hd, hqd⟩
              · refine Or.inr ⟨(x, y), hxy4, (0, 1), by simp [goDirs], ?_⟩
                rw [h]
                exact Prod.ext (show x = x + 0 by omega) (show y + 1 = y + 1 from rfl)
              · exact Or.inr ⟨s, s4 _ (s3 _ (s2 _ hs)), d, hd, hqd⟩
            · by_cases h2 : q ∈ r2.visited
              · have := ih x (y - 1) r1.visited r1.group q (hr2 ▸ h2) h1 hqE
                rw [← hr2] at this
                rcases this with h | ⟨s, hs, d, hd, hqd⟩
                · refine Or.inr ⟨(x, y), hxy4, (0, -1), by simp [goDirs], ?_⟩
                  rw [h]
                  exact Prod.ext (show x = x + 0 by omega) (show y - 1 = y + -1 by omega)
                · exact Or.inr ⟨s, s4 _ (s3 _ hs), d, hd, hqd⟩
              · by_cases h3 : q ∈ r3.visited
                · have := ih (x + 1) y r2.visited r2.group q (hr3 ▸ h3) h2 hqE
                  rw [← hr3] at this
                  rcases this with h | ⟨s, hs, d, hd, hqd⟩
                  · refine Or.inr ⟨(x, y), hxy4, (1, 0), by simp [goDirs], ?_⟩
                    rw [h]
                    exact Prod.ext (show x + 1 = x + 1 from rfl) (show y = y + 0 by omega)
                  · exact Or.inr ⟨s, s4 _ hs, d, hd, hqd⟩
                · have := ih (x - 1) y r3.visited r3.group q (hr4 ▸ hq) h3 hqE
                  rw [← hr4] at this
                  rcases this with h | ⟨s, hs, d, hd, hqd⟩
                  · refine Or.inr ⟨(x, y), hxy4, (-1, 0), by simp [goDirs], ?_⟩
                    rw [h]
                    exact Prod.ext (show x - 1 = x + -1 by omega) (show y = y + 0 by omega)
                  · exact Or.inr ⟨s, hs, d, hd, hqd⟩
          next hcol =>
            rcases Finset.mem_insert.mp hq with h | h
            · subst h
              exact absurd hqE hne
            · exact absurd h hnv
    next => exact absurd hq hnv

theorem dfs_suff (b : Board) (color : Piece) (fuel : Nat) :
    ∀ (x y : Int) (vis : Finset (Int × Int)) (grp : List (Int × Int)),
      (validCells b \ vis).card < fuel →
      ∀ q ∈ (countLibertiesDFS b color fuel x y vis grp).group, q ∉ grp →
      ∀ d ∈ goDirs, ¬ b.isValidBounds (q.1 + d.1) (q.2 + d.2)
        ∨ (q.1 + d.1, q.2 + d.2) ∈ (countLibertiesDFS b color fuel x y vis grp).visited := by
  induction fuel with
  | zero => intro x y vis grp hcard; omega
  | succ fuel ih =>
    intro x y vis grp hcard q hq hqg d hd
    rw [countLibertiesDFS] at hq ⊢
    split at hq
    next hbnd =>
      split at hq
      · exact absurd hq hqg
      next hv =>
        split at hq
        · exact absurd hq hqg
        next hne =>
          split at hq
          next hcol =>
            rw [if_pos hbnd, if_neg hv, if_neg hne, if_pos hcol]
            dsimp only at hq ⊢
            set r1 := countLibertiesDFS b color fuel x (y + 1) (insert (x, y) vis) (grp ++ [(x, y)]) with hr1
            set r2 := countLibertiesDFS b color fuel x (y - 1) r1.visited r1.group with hr2
            set r3 := countLibertiesDFS b color fuel (x + 1) y r2.visited r2.group with hr3
            set r4 := countLibertiesDFS b color fuel (x - 1) y r3.visited r3.group with hr4
            -- visited monotonicity along the chain
            have m1 := dfs_vis_mono b color fuel x (y + 1) (insert (x, y) vis) (grp ++ [(x, y)])
            rw [← hr1] at m1
            have m2 := dfs_vis_mono b color fuel x (y - 1) r1.visited r1.group
            rw [← hr2] at m2
            have m3 := dfs_vis_mono b color fuel (x + 1) y r2.visited r2.group
            rw [← hr3] at m3
            have m4 := dfs_vis_mono b color fuel (x - 1) y r3.visited r3.group
            rw [← hr4] at m4
            -- fuel accounting
            have hxyV : (x, y) ∈ validCells b \ vis :=
              Finset.mem_sdiff.mpr ⟨mem_validCells.mpr hbnd, hv⟩
            have hpos : 0 < (validCells b \ vis).card := Finset.card_pos.mpr ⟨_, hxyV⟩
            have hins : (validCells b \ insert (x, y) vis).card < fuel := by
              rw [Finset.sdiff_insert, Finset.card_erase_of_mem hxyV]
              omega
            have hc1 : (validCells b \ r1.visited).card < fuel := by
              have : validCells b \ r1.visited ⊆ validCells b \ insert (x, y) vis :=
                Finset.sdiff_subset_sdiff (Finset.Subset.refl _) m1
              have := Finset.card_le_card this
              omega
            have hc2 : (validCells b \ r2.visited).card < fuel := by
              have : validCells b \ r2.visited ⊆ validCells b \ r1.visited :=
                Finset.sdiff_subset_sdiff (Finset.Subset.refl _) m2
              have := Finset.card_le_card this
              omega
            have hc3 : (validCells b \ r3.visited).card < fuel := by
              have : validCells b \ r3.visited ⊆ validCells b \ r2.visited :=
                Finset.sdiff_subset_sdiff (Finset.Subset.refl _) m3
              have := Finset.card_le_card this
              omega
            have hfuel : 1 ≤ fuel := by omega
            -- which call contributed q
            by_cases hg3 : q ∈ r3.group
            · by_cases hg2 : q ∈ r2.group
              · by_cases hg1 : q ∈ r1.group
                · by_cases hg0 : q ∈ grp ++ [(x, y)]
                  · -- q is the seed (x, y)
                    have hqxy : q = (x, y) := by
                      rcases List.mem_append.mp hg0 with h | h
                      · exact absurd h hqg
                      · simpa using h
                    subst hqxy
                    -- each neighbor is the seed of one of the four calls
                    rcases (by simpa [goDirs] using hd :
                        d = ((0 : Int), (1 : Int)) ∨ d = (0, -1) ∨ d = (1, 0) ∨ d = (-1, 0))
                      with rfl | rfl | rfl | rfl
                    · by_cases hbq : b.isValidBounds (x + 0) (y + 1)
                      · refine Or.inr ?_
                        have hs := dfs_seed_visited b color fuel x (y + 1)
                          (insert (x, y) vis) (grp ++ [(x, y)]) hfuel (by simpa using hbq)
                        rw [← hr1] at hs
                        have : ((x : Int) + 0, y + 1) = (x, y + 1) := by norm_num
                        rw [this]
                        exact m4 (m3 (m2 hs))
                      · exact Or.inl hbq
                    · by_cases hbq : b.isValidBounds (x + 0) (y + -1)
                      · refine Or.inr ?_
                        have hs := dfs_seed_visited b color fuel x (y - 1)
                          r1.visited r1.group hfuel (by
                            have : y + -1 = y - 1 := by ring
                            rw [← this]
                            simpa using hbq)
                        rw [← hr2] at hs
                        have : ((x : Int) + 0, y + -1) = (x, y - 1) := by
                          simp only [Prod.mk.injEq]
                          omega
                        rw [this]
                        exact m4 (m3 hs)
                      · exact Or.inl hbq
                    · by_cases hbq : b.isValidBounds (x + 1) (y + 0)
                      · refine Or.inr ?_
                        have hs := dfs_seed_visited b color fuel (x + 1) y
                          r2.visited r2.group hfuel (by simpa using hbq)
                        rw [← hr3] at hs
                        have : ((x : Int) + 1, y + 0) = (x + 1, y) := by norm_num
                        rw [this]
                        exact m4 hs
                      · exact Or.inl hbq
                    · by_cases hbq : b.isValidBounds (x + -1) (y + 0)
                      · refine Or.inr ?_
                        have hs := dfs_seed_visited b color fuel (x - 1) y
                          r3.visited r3.group hfuel (by
                            have : x + -1 = x - 1 := by ring
                            rw [← this]
                            simpa using hbq)
                        rw [← hr4] at hs
                        have : ((x : Int) + -1, y + 0) = (x - 1, y) := by
                          simp only [Prod.mk.injEq]
                          omega
                        rw [this]
                        exact hs
                      · exact Or.inl hbq
                  · -- q was added by the first call
                    have := ih x (y + 1) (insert (x, y) vis) (grp ++ [(x, y)]) hins q
                      (hr1 ▸ hg1) hg0 d hd
                    rw [← hr1] at this
                    rcases this with h | h
                    · exact Or.inl h
                    · exact Or.inr (m4 (m3 (m2 h)))
                · have := ih x (y - 1) r1.visited r1.group hc1 q (hr2 ▸ hg2) hg1 d hd
                  rw [← hr2] at this
                  rcases this with h | h
                  · exact Or.inl h
                  · exact Or.inr (m4 (m3 h))
              · have := ih (x + 1) y r2.visited r2.group hc2 q (hr3 ▸ hg3) hg2 d hd
                rw [← hr3] at this
                rcases this with h | h
                · exact Or.inl h
                · exact Or.inr (m4 h)
            · have := ih (x - 1) y r3.visited r3.group hc3 q (hr4 ▸ hq) hg3 d hd
              rw [← hr4] at this
              rcases this with h | h
              · exact Or.inl h
              · exact Or.inr h
          next hcol =>
            exact absurd hq hqg
    next => exact absurd hq hqg

theorem getLiberties_exact (b : Board) (x y : Int) (c : Piece)
    (hp : b.getPiece x y = c) (hc : c ≠ EMPTY) :
    (GoRule.getLiberties b x y c).libs
      = (libertyCells b (GoRule.getLiberties b x y c).group).card := by
  unfold GoRule.getLiberties
  set out := countLibertiesDFS b c (b.size * b.size + 1) x y ∅ [] with hout
  have hcount := dfs_libs_card b c (b.size * b.size + 1) x y ∅ []
  rw [← hout] at hcount
  simp only [Finset.filter_empty, Finset.card_empty, add_zero] at hcount
  have hsets : out.visited.filter (fun q => b.getPiece q.1 q.2 = EMPTY)
      = libertyCells b out.group := by
    ext q
    simp only [Finset.mem_filter, libertyCells]
    constructor
    · rintro ⟨hqv, hqE⟩
      have hqvc : q ∈ validCells b := by
        have := dfs_vis_super b c (b.size * b.size + 1) x y ∅ []
        rw [← hout] at this
        simpa using this hqv
      have hadj := dfs_empty_adj b c (b.size * b.size + 1) x y ∅ [] q
        (hout ▸ hqv) (Finset.not_mem_empty q) hqE
      rw [← hout] at hadj
      rcases hadj with h | h
      · subst h
        rw [hp] at hqE
        exact absurd hqE hc
      · exact ⟨hqvc, hqE, h⟩
    · rintro ⟨hqvc, hqE, s, hs, d, hd, hqd⟩
      have hcard : (validCells b \ (∅ : Finset (Int × Int))).card < b.size * b.size + 1 := by
        have h1 : (validCells b).card ≤ b.size * b.size := by
          unfold validCells
          calc ((Finset.range b.size ×ˢ Finset.range b.size).image
                (fun p => ((p.1 : Int), (p.2 : Int)))).card
              ≤ (Finset.range b.size ×ˢ Finset.range b.size).card := Finset.card_image_le
            _ = b.size * b.size := by rw [Finset.card_product, Finset.card_range]
        simpa using Nat.lt_succ_of_le h1
      have hsuff := dfs_suff b c (b.size * b.size + 1) x y ∅ [] hcard s
        (hout ▸ hs) (List.not_mem_nil s) d hd
      rw [← hout] at hsuff
      rcases hsuff with h | h
      · exact absurd (by rw [hqd] at hqvc; exact mem_validCells.mp hqvc) h
      · exact ⟨by rw [hqd]; exact h, hqE⟩
  rw [hsets] at hcount
  exact hcount.symm

theorem Board.getPiece_setPiece_self (b : Board) (x y : Int) (p : Piece)
    (hwf : b.WF) (hb : b.isValidBounds x y) :
    (b.setPiece x y p).getPiece x y = p := by
  obtain ⟨h1, h2⟩ := hwf
  have hx : x.toNat < b.grid.length := by
    obtain ⟨hb1, hb2, _, _⟩ := hb
    omega
  have hy : y.toNat < (b.grid.getD x.toNat []).length := by
    rw [h2 _ (listGetDMem _ _ _ hx)]
    obtain ⟨_, _, hb3, hb4⟩ := hb
    omega
  have hb2 : (b.setPiece x y p).isValidBounds x y :=
    (Board.isValidBounds_setPiece b x y x y p).mpr hb
  unfold Board.setPiece at hb2 ⊢
  rw [if_pos hb]
  rw [if_pos hb] at hb2
  unfold Board.getPiece
  rw [if_pos hb2]
  simp only
  rw [listGetDSetSelf _ _ _ _ hx, listGetDSetSelf _ _ _ _ hy]

theorem Board.getPiece_setPiece_ne (b : Board) (x y u v : Int) (p : Piece)
    (hne : (u, v) ≠ (x, y)) :
    (b.setPiece x y p).getPiece u v = b.getPiece u v := by
  by_cases hb : b.isValidBounds x y
  · by_cases hu : b.isValidBounds u v
    · have hu2 : (b.setPiece x y p).isValidBounds u v :=
        (Board.isValidBounds_setPiece b x y u v p).mpr hu
      unfold Board.setPiece at hu2 ⊢
      rw [if_pos hb]
      rw [if_pos hb] at hu2
      unfold Board.getPiece
      rw [if_pos hu2, if_pos hu]
      simp only
      by_cases hxu : u = x
      · subst hxu
        have hvy : v ≠ y := by
          intro h
          exact hne (by rw [h])
        by_cases hul : u.toNat < b.grid.length
        · rw [listGetDSetSelf _ _ _ _ hul]
          have : y.toNat ≠ v.toNat := by
            obtain ⟨_, _, h3, _⟩ := hu
            obtain ⟨_, _, h5, _⟩ := hb
            omega
          exact listGetDSetNe _ _ _ _ _ this
        · rw [listSetOOB _ _ _ (by omega)]
      · have : x.toNat ≠ u.toNat := by
          obtain ⟨h3, _, _, _⟩ := hu
          obtain ⟨h5, _, _, _⟩ := hb
          omega
        rw [listGetDSetNe _ _ _ _ _ this]
    · have hu2 : ¬ (b.setPiece x y p).isValidBounds u v :=
        fun h => hu ((Board.isValidBounds_setPiece b x y u v p).mp h)
      unfold Board.getPiece
      rw [if_neg hu2, if_neg hu]
  · unfold Board.setPiece
    rw [if_neg hb]

theorem setGroupEmpty_WF (grp : List (Int × Int)) :
    ∀ b : Board, b.WF → (setGroupEmpty b grp).WF := by
  induction grp with
  | nil => intro b h; exact h
  | cons r t ih =>
    intro b h
    unfold setGroupEmpty at ih ⊢
    rw [List.foldl_cons]
    exact ih _ (Board.WF_setPiece b r.1 r.2 EMPTY h)

theorem setGroupEmpty_frame (grp : List (Int × Int)) :
    ∀ (b : Board) (u v : Int), (u, v) ∉ grp →
      (setGroupEmpty b grp).getPiece u v = b.getPiece u v := by
  induction grp with
  | nil => intro b u v _; rfl
  | cons r t ih =>
    intro b u v hnm
    unfold setGroupEmpty at ih ⊢
    rw [List.foldl_cons]
    rw [ih _ u v (fun h => hnm (List.mem_cons_of_mem _ h))]
    exact Board.getPiece_setPiece_ne b r.1 r.2 u v EMPTY
      (fun h => hnm (by rw [h]; exact List.mem_cons_self _ _))

theorem setGroupEmpty_persist (grp : List (Int × Int)) :
    ∀ (b : Board) (u v : Int), b.WF → b.getPiece u v = EMPTY →
      (setGroupEmpty b grp).getPiece u v = EMPTY := by
  induction grp with
  | nil => intro b u v _ h; exact h
  | cons r t ih =>
    intro b u v hwf h
    unfold setGroupEmpty at ih ⊢
    rw [List.foldl_cons]
    refine ih _ u v (Board.WF_setPiece b r.1 r.2 EMPTY hwf) ?_
    by_cases hr : (u, v) = (r.1, r.2)
    · have h1 : u = r.1 := congrArg Prod.fst hr
      have h2 : v = r.2 := congrArg Prod.snd hr
      rw [← h1, ← h2]
      by_cases hbr : b.isValidBounds u v
      · exact Board.getPiece_setPiece_self b u v EMPTY hwf hbr
      · unfold Board.setPiece
        rw [if_neg hbr]
        exact h
    · rw [Board.getPiece_setPiece_ne b r.1 r.2 u v EMPTY hr]
      exact h

theorem setGroupEmpty_clears (grp : List (Int × Int)) :
    ∀ (b : Board), b.WF → (∀ r ∈ grp, Board.isValidBounds b r.1 r.2) →
      ∀ q ∈ grp, (setGroupEmpty b grp).getPiece q.1 q.2 = EMPTY := by
  induction grp with
  | nil => intro b _ _ q hq; exact absurd hq (List.not_mem_nil q)
  | cons r t ih =>
    intro b hwf hin q hq
    unfold setGroupEmpty at ih ⊢
    rw [List.foldl_cons]
    have hwf2 : (b.setPiece r.1 r.2 EMPTY).WF := Board.WF_setPiece b r.1 r.2 EMPTY hwf
    have hin2 : ∀ s ∈ t, Board.isValidBounds (b.setPiece r.1 r.2 EMPTY) s.1 s.2 :=
      fun s hs => (Board.isValidBounds_setPiece b r.1 r.2 s.1 s.2 EMPTY).mpr
        (hin s (List.mem_cons_of_mem _ hs))
    by_cases hqt : q ∈ t
    · exact ih _ hwf2 hin2 q hqt
    · have hqr : q = r := by
        rcases List.mem_cons.mp hq with h | h
        · exact h
        · exact absurd h hqt
      subst hqr
      have hclean : (b.setPiece q.1 q.2 EMPTY).getPiece q.1 q.2 = EMPTY :=
        Board.getPiece_setPiece_self b q.1 q.2 EMPTY hwf (hin q (List.mem_cons_self _ _))
      calc (List.foldl (fun bb s => bb.setPiece s.1 s.2 EMPTY) (b.setPiece q.1 q.2 EMPTY) t).getPiece q.1 q.2
          = (b.setPiece q.1 q.2 EMPTY).getPiece q.1 q.2 := setGroupEmpty_frame t _ q.1 q.2 hqt
        _ = EMPTY := hclean

theorem removeStep_WF (x y : Int) (opp : Piece) (b : Board) (d : Int × Int) (hwf : b.WF) :
    (removeStep x y opp b d).WF := by
  unfold removeStep
  split
  · split
    · exact setGroupEmpty_WF _ _ hwf
    · exact hwf
  · exact hwf

theorem removeStep_persist (x y u v : Int) (opp : Piece) (b : Board) (d : Int × Int)
    (hwf : b.WF) (h : b.getPiece u v = EMPTY) :
    (removeStep x y opp b d).getPiece u v = EMPTY := by
  unfold removeStep
  split
  · split
    · exact setGroupEmpty_persist _ _ u v hwf h
    · exact h
  · exact h

theorem removeStep_keeps (x y u v : Int) (opp : Piece) (b : Board) (d : Int × Int)
    (hne : b.getPiece u v ≠ opp) :
    (removeStep x y opp b d).getPiece u v = b.getPiece u v := by
  unfold removeStep
  split
  · split
    next hlibs =>
      refine setGroupEmpty_frame _ b u v ?_
      intro hmem
      have := dfs_group_mem b opp (b.size * b.size + 1) (x + d.1) (y + d.2) ∅ []
        (u, v) hmem
      rcases this with h | ⟨_, hpc, _, _⟩
      · exact List.not_mem_nil _ h
      · exact hne hpc
    · rfl
  · rfl

theorem removeFold_WF (x y : Int) (opp : Piece) (ds : List (Int × Int)) :
    ∀ b : Board, b.WF → ((ds.foldl (removeStep x y opp) b)).WF := by
  induction ds with
  | nil => intro b h; exact h
  | cons d t ih =>
    intro b h
    rw [List.foldl_cons]
    exact ih _ (removeStep_WF x y opp b d h)

theorem removeFold_persist (x y : Int) (opp : Piece) (ds : List (Int × Int)) :
    ∀ (b : Board) (u v : Int), b.WF → b.getPiece u v = EMPTY →
      ((ds.foldl (removeStep x y opp) b)).getPiece u v = EMPTY := by
  induction ds with
  | nil => intro b u v _ h; exact h
  | cons d t ih =>
    intro b u v hwf h
    rw [List.foldl_cons]
    exact ih _ u v (removeStep_WF x y opp b d hwf) (removeStep_persist x y u v opp b d hwf h)

theorem removeFold_keeps (x y : Int) (opp : Piece) (ds : List (Int × Int)) :
    ∀ (b : Board) (u v : Int), b.getPiece u v ≠ opp →
      ((ds.foldl (removeStep x y opp) b)).getPiece u v = b.getPiece u v := by
  induction ds with
  | nil => intro b u v _; rfl
  | cons d t ih =>
    intro b u v hne
    rw [List.foldl_cons]
    rw [ih _ u v (by rw [removeStep_keeps x y u v opp b d hne]; exact hne)]
    exact removeStep_keeps x y u v opp b d hne

theorem removeStep_clears (x y : Int) (opp : Piece) (bK : Board) (d : Int × Int)
    (hwf : bK.WF)
    (hbnd : bK.isValidBounds (x + d.1) (y + d.2))
    (hpo : bK.getPiece (x + d.1) (y + d.2) = opp)
    (hlibs : (GoRule.getLiberties bK (x + d.1) (y + d.2) opp).libs = 0) :
    ∀ q ∈ (GoRule.getLiberties bK (x + d.1) (y + d.2) opp).group,
      (removeStep x y opp bK d).getPiece q.1 q.2 = EMPTY := by
  intro q hq
  have hbounds : ∀ r ∈ (GoRule.getLiberties bK (x + d.1) (y + d.2) opp).group,
      Board.isValidBounds bK r.1 r.2 := by
    intro r hr
    have := dfs_group_mem bK opp (bK.size * bK.size + 1) (x + d.1) (y + d.2) ∅ [] r hr
    rcases this with h | ⟨hb, _, _, _⟩
    · exact absurd h (List.not_mem_nil r)
    · exact hb
  unfold removeStep
  rw [if_pos ⟨hbnd, hpo⟩, if_pos hlibs]
  exact setGroupEmpty_clears _ bK hwf hbounds q hq

theorem foldlTakeGetDrop {α β : Type} (f : β → α → β) (l : List α) (k : Nat)
    (hk : k < l.length) (init : β) :
    l.foldl f init = (l.drop (k + 1)).foldl f (f ((l.take k).foldl f init) (l.get ⟨k, hk⟩)) := by
  conv_lhs => rw [← List.take_append_drop k l]
  rw [List.foldl_append, List.drop_eq_getElem_cons hk, List.foldl_cons]
  rfl

/-- C3: Territory-Capture's `makeMove` places the mover's stone and then, for
each direction processed in source order, if the orthogonally adjacent cell
holds an opponent stone whose group (discovered on the board as it stands at
that step) has liberty tally zero, every stone of that entire group is set to
Empty in the final board; the mover's own just-placed stone remains on the
board. -/
theorem c3_go_makeMove_places_and_captures (b : Board) (x y : Int) (player : Piece)
    (hwf : b.WF) (hp : player = BLACK ∨ player = WHITE) (hb : b.isValidBounds x y) :
    GoRule.makeMove b x y player
      = GoRule.removeDeadStones (b.setPiece x y player) x y (getOpponent player)
    ∧ (GoRule.makeMove b x y player).getPiece x y = player
    ∧ ∀ (k : Nat) (hk : k < goDirs.length),
        ((goDirs.take k).foldl (removeStep x y (getOpponent player))
            (b.setPiece x y player)).isValidBounds
          (x + (goDirs.get ⟨k, hk⟩).1) (y + (goDirs.get ⟨k, hk⟩).2) →
        ((goDirs.take k).foldl (removeStep x y (getOpponent player))
            (b.setPiece x y player)).getPiece
          (x + (goDirs.get ⟨k, hk⟩).1) (y + (goDirs.get ⟨k, hk⟩).2) = getOpponent player →
        (GoRule.getLiberties
            ((goDirs.take k).foldl (removeStep x y (getOpponent player)) (b.setPiece x y player))
            (x + (goDirs.get ⟨k, hk⟩).1) (y + (goDirs.get ⟨k, hk⟩).2)
            (getOpponent player)).libs = 0 →
        ∀ q ∈ (GoRule.getLiberties
            ((goDirs.take k).foldl (removeStep x y (getOpponent player)) (b.setPiece x y player))
            (x + (goDirs.get ⟨k, hk⟩).1) (y + (goDirs.get ⟨k, hk⟩).2)
            (getOpponent player)).group,
          (GoRule.makeMove b x y player).getPiece q.1 q.2 = EMPTY := by
  have hops : player ≠ getOpponent player := by
    rcases hp with rfl | rfl <;> decide
  have hsent : ¬(x = -1 ∧ y = -1) := by
    obtain ⟨h1, _, _, _⟩ := hb
    rintro ⟨rfl, rfl⟩
    omega
  have heq : GoRule.makeMove b x y player
      = GoRule.removeDeadStones (b.setPiece x y player) x y (getOpponent player) := by
    unfold GoRule.makeMove
    rw [if_neg hsent]
  have hwf0 : (b.setPiece x y player).WF := Board.WF_setPiece _ _ _ _ hwf
  have hplayer0 : (b.setPiece x y player).getPiece x y = player :=
    Board.getPiece_setPiece_self b x y player hwf hb
  refine ⟨heq, ?_, ?_⟩
  · rw [heq]
    unfold GoRule.removeDeadStones
    rw [removeFold_keeps x y (getOpponent player) goDirs (b.setPiece x y player) x y
      (by rw [hplayer0]; exact hops)]
    exact hplayer0
  · intro k hk hbnd hpo hlibs q hq
    rw [heq]
    have hwfK := removeFold_WF x y (getOpponent player) (goDirs.take k)
      (b.setPiece x y player) hwf0
    have hclear := removeStep_clears x y (getOpponent player) _ (goDirs.get ⟨k, hk⟩)
      hwfK hbnd hpo hlibs q hq
    unfold GoRule.removeDeadStones
    rw [foldlTakeGetDrop (removeStep x y (getOpponent player)) goDirs k hk
      (b.setPiece x y player)]
    exact removeFold_persist x y (getOpponent player) (goDirs.drop (k + 1)) _ q.1 q.2
      (removeStep_WF x y (getOpponent player) _ _ hwfK) hclear

/-- Witness for C3: black plays (0,0) on `goCaptureBoard`, capturing the
white stone at (0,1) while black's own stone stays. -/
theorem c3_go_makeMove_places_and_captures_witness :
    (GoRule.makeMove goCaptureBoard 0 0 BLACK).getPiece 0 0 = BLACK
    ∧ (GoRule.makeMove goCaptureBoard 0 0 BLACK).getPiece 0 1 = EMPTY := by
  have h := c3_go_makeMove_places_and_captures goCaptureBoard 0 0 BLACK (by decide) (Or.inl rfl) (by decide)
  refine ⟨h.2.1, ?_⟩
  have h2 := h.2.2 0 (by decide) (by decide) (by decide) (by decide) (0, 1) (by decide)
  exact h2

/-- C5 (amended): for every board and seed stone, the liberty tally of the
Territory-Capture group discovery equals exactly the number of distinct empty
cells orthogonally adjacent to the discovered group; it never exceeds it.
(The DFS marks empty cells visited, so each liberty is counted once.) -/
theorem c5_liberty_tally_exact (b : Board) (x y : Int) (c : Piece)
    (hp : b.getPiece x y = c) (hc : c ≠ EMPTY) :
    (GoRule.getLiberties b x y c).libs
      = (libertyCells b (GoRule.getLiberties b x y c).group).card :=
  getLiberties_exact b x y c hp hc

/-- C5 (counterexample to the claim as stated): no board and seed stone make
the liberty tally strictly exceed the group's number of distinct adjacent
empty cells. -/
theorem c5_overcount_counterexample : ¬ c5ClaimStatement := by
  rintro ⟨b, x, y, c, hp, hc, hlt⟩
  have := getLiberties_exact b x y c hp hc
  omega

/-- Witness for C5 (amended): the three-stone black group on `goGroupBoard`
has liberty tally 1, equal to its single distinct empty neighbor (1,1) even
though that cell is adjacent to two stones of the group. -/
theorem c5_liberty_tally_exact_witness :
    goGroupBoard.getPiece 0 0 = BLACK ∧ BLACK ≠ EMPTY
    ∧ (GoRule.getLiberties goGroupBoard 0 0 BLACK).libs
        = (libertyCells goGroupBoard (GoRule.getLiberties goGroupBoard 0 0 BLACK).group).card :=
  ⟨by decide, by decide, c5_liberty_tally_exact goGroupBoard 0 0 BLACK (by decide) (by decide)⟩
theorem consec_sound (b : Board) (c : Piece) (dx dy : Int) :
    ∀ (F : Nat) (x y : Int) (i : Nat), 1 ≤ i → i ≤ consec b c x y dx dy F →
      b.getPiece (x + i * dx) (y + i * dy) = c := by
  intro F
  induction F with
  | zero => intro x y i h1 h2; simp [consec] at h2; omega
  | succ F ih =>
    intro x y i h1 h2
    rw [consec] at h2
    split at h2
    next hmatch =>
      rcases Nat.lt_or_ge i 2 with hi | hi
      · have : i = 1 := by omega
        subst this
        simpa using hmatch
      · have h3 : 1 ≤ i - 1 := by omega
        have h4 : i - 1 ≤ consec b c (x + dx) (y + dy) dx dy F := by omega
        have := ih (x + dx) (y + dy) (i - 1) h3 h4
        have hcast : ((i - 1 : Nat) : Int) = (i : Int) - 1 := by
          push_cast [Nat.cast_sub (by omega : 1 ≤ i)]
          ring
        rw [hcast] at this
        have e1 : x + dx + ((i : Int) - 1) * dx = x + i * dx := by ring
        have e2 : y + dy + ((i : Int) - 1) * dy = y + i * dy := by ring
        rwa [e1, e2] at this
    next => omega

theorem consec_complete (b : Board) (c : Piece) (dx dy : Int) :
    ∀ (F : Nat) (x y : Int) (k : Nat),
      (∀ i : Nat, 1 ≤ i → i ≤ k → b.getPiece (x + i * dx) (y + i * dy) = c) →
      min F k ≤ consec b c x y dx dy F := by
  intro F
  induction F with
  | zero => intro x y k _; simp
  | succ F ih =>
    intro x y k hall
    cases k with
    | zero => simp
    | succ k =>
      have h1 : b.getPiece (x + dx) (y + dy) = c := by
        have := hall 1 (by omega) (by omega)
        simpa using this
      rw [consec, if_pos h1]
      have hshift : ∀ i : Nat, 1 ≤ i → i ≤ k →
          b.getPiece (x + dx + i * dx) (y + dy + i * dy) = c := by
        intro i hi1 hi2
        have := hall (i + 1) (by omega) (by omega)
        have e1 : x + ((i : Nat) + 1 : Nat) * dx = x + dx + i * dx := by push_cast; ring
        have e2 : y + ((i : Nat) + 1 : Nat) * dy = y + dy + i * dy := by push_cast; ring
        rwa [e1, e2] at this
      have := ih (x + dx) (y + dy) k hshift
      omega

/-- C6: With a stone of color `c` just played at the in-bounds cell (x, y),
Placement-Five's `checkWin` reports that color's win if and only if along
one of the four axes the contiguous same-colored run through (x, y),
counting both half-lines, has length at least 5; no shorter or broken run
produces a win. -/
theorem c6_gomoku_checkWin_five_run (b : Board) (x y : Int) (c : Piece)
    (hb : b.isValidBounds x y) (hp : b.getPiece x y = c) (hc : c ≠ EMPTY) :
    (GomokuRule.checkWin b x y = winStatus c ↔
      ∃ d ∈ gomokuDirs, ∃ f bk : Nat, 4 ≤ f + bk ∧
        (∀ i : Nat, 1 ≤ i → i ≤ f → b.getPiece (x + i * d.1) (y + i * d.2) = c) ∧
        (∀ i : Nat, 1 ≤ i → i ≤ bk → b.getPiece (x - i * d.1) (y - i * d.2) = c)) := by
  have hsent : ¬(x = -1 ∧ y = -1) := by
    obtain ⟨h1, _, _, _⟩ := hb
    rintro ⟨rfl, rfl⟩
    omega
  have hws : winStatus c ≠ PLAYING ∧ winStatus c ≠ DRAW := by
    unfold winStatus
    split
    · exact ⟨by simp, by simp⟩
    · exact ⟨by simp, by simp⟩
  unfold GomokuRule.checkWin
  rw [if_neg hsent, hp, if_neg hc]
  cases hany : (gomokuDirs.any fun d =>
      decide (5 ≤ 1 + consec b c x y d.1 d.2 4 + consec b c x y (-d.1) (-d.2) 4)) with
  | true =>
    rw [if_pos (rfl : (true : Bool) = true)]
    constructor
    · intro _
      have hex := List.any_eq_true.mp hany
      obtain ⟨d, hd, hcount⟩ := hex
      have hcount2 : 5 ≤ 1 + consec b c x y d.1 d.2 4 + consec b c x y (-d.1) (-d.2) 4 :=
        of_decide_eq_true hcount
      refine ⟨d, hd, consec b c x y d.1 d.2 4, consec b c x y (-d.1) (-d.2) 4,
        by omega, ?_, ?_⟩
      · intro i hi1 hi2
        exact consec_sound b c d.1 d.2 4 x y i hi1 hi2
      · intro i hi1 hi2
        have := consec_sound b c (-d.1) (-d.2) 4 x y i hi1 hi2
        have e1 : x + (i : Int) * -d.1 = x - i * d.1 := by ring
        have e2 : y + (i : Int) * -d.2 = y - i * d.2 := by ring
        rwa [e1, e2] at this
    · intro _
      rfl
  | false =>
    rw [if_neg (Bool.false_ne_true : ¬ (false : Bool) = true)]
    constructor
    · intro h
      exfalso
      split at h
      · exact hws.1 h.symm
      · exact hws.2 h.symm
    · rintro ⟨d, hd, f, bk, hfb, hf, hbk⟩
      exfalso
      have hfwd : min 4 f ≤ consec b c x y d.1 d.2 4 :=
        consec_complete b c d.1 d.2 4 x y f hf
      have hbwd : min 4 bk ≤ consec b c x y (-d.1) (-d.2) 4 := by
        refine consec_complete b c (-d.1) (-d.2) 4 x y bk ?_
        intro i hi1 hi2
        have := hbk i hi1 hi2
        have e1 : x + (i : Int) * -d.1 = x - i * d.1 := by ring
        have e2 : y + (i : Int) * -d.2 = y - i * d.2 := by ring
        rw [e1, e2]
        exact this
      have : (gomokuDirs.any fun d =>
          decide (5 ≤ 1 + consec b c x y d.1 d.2 4
            + consec b c x y (-d.1) (-d.2) 4)) = true := by
        refine List.any_eq_true.mpr ⟨d, hd, ?_⟩
        exact decide_eq_true (by omega)
      rw [hany] at this
      exact Bool.false_ne_true this

/-- Witness for C6: five black stones across row 0 of a 5×5 board win for
black at the interior cell (0,2). -/
theorem c6_gomoku_checkWin_five_run_witness :
    GomokuRule.checkWin gomokuRowBoard 0 2 = winStatus BLACK ∧ winStatus BLACK = BLACK_WIN := by
  constructor
  · exact (c6_gomoku_checkWin_five_run gomokuRowBoard 0 2 BLACK (by decide) (by decide) (by decide)).mpr
      ⟨(0, 1), by decide, 2, 2, by omega,
        by intro i h1 h2; interval_cases i <;> decide,
        by intro i h1 h2; interval_cases i <;> decide⟩
  · decide

/-- Characterization of `ReversiRule::checkWin`: it decides exactly the full
boards, by stone-count comparison. -/
theorem c4_characterization (b : Board) :
    (ReversiRule.checkWin b = PLAYING ↔ b.countPieces EMPTY ≠ 0)
    ∧ (b.countPieces EMPTY = 0 →
        (ReversiRule.checkWin b = BLACK_WIN ↔ b.countPieces WHITE < b.countPieces BLACK)
        ∧ (ReversiRule.checkWin b = WHITE_WIN ↔ b.countPieces BLACK < b.countPieces WHITE)
        ∧ (ReversiRule.checkWin b = DRAW ↔ b.countPieces BLACK = b.countPieces WHITE)) := by
  unfold ReversiRule.checkWin
  by_cases h0 : b.countPieces EMPTY = 0
  · rw [if_pos h0]
    constructor
    · constructor
      · intro h
        split at h
        · exact absurd h (by simp)
        · split at h
          · exact absurd h (by simp)
          · exact absurd h (by simp)
      · intro h
        exact absurd h0 h
    · intro _
      refine ⟨?_, ?_, ?_⟩
      · constructor
        · intro h
          by_contra hlt
          rw [if_neg hlt] at h
          split at h
          · exact absurd h (by simp)
          · exact absurd h (by simp)
        · intro h
          rw [if_pos h]
      · constructor
        · intro h
          split at h
          · exact absurd h (by simp)
          · split at h
            next h2 => exact h2
            next h2 => exact absurd h (by simp)
        · intro h
          rw [if_neg (by omega), if_pos h]
      · constructor
        · intro h
          split at h
          next h2 => exact absurd h (by simp)
          next h2 =>
            split at h
            next h3 => exact absurd h (by simp)
            next h3 => omega
        · intro h
          rw [if_neg (by omega), if_neg (by omega)]
  · rw [if_neg h0]
    exact ⟨⟨fun _ => h0, fun _ => rfl⟩, fun h => absurd h h0⟩

/-- C4 (counterexample to the claim as stated): on `reversiLoneStoneBoard`
white has zero stones and neither side has a legal move, yet `checkWin`
still reports `PLAYING` because the board is not full. -/
theorem c4_reversi_checkWin_counterexample : ¬ c4ClaimStatement := by
  intro h
  have h2 := (h reversiLoneStoneBoard).1.mpr
    (Or.inr (Or.inr (Or.inl (by decide))))
  exact h2 (by decide)

/-- C4 (amended): Flip-Capture's `terminalStatus` reports a decided game
exactly when the board is full; in that case the color with the strictly
greater stone count wins and equal counts yield a draw.  The zero-stone and
no-legal-move endings are handled outside `checkWin` by the turn driver. -/
theorem c4_reversi_checkWin_full_board_only (b : Board) :
    (ReversiRule.checkWin b ≠ PLAYING ↔ b.countPieces EMPTY = 0)
    ∧ (b.countPieces EMPTY = 0 →
        ReversiRule.checkWin b =
          (if b.countPieces WHITE < b.countPieces BLACK then BLACK_WIN
           else if b.countPieces BLACK < b.countPieces WHITE then WHITE_WIN
           else DRAW)) := by
  have h := c4_characterization b
  constructor
  · constructor
    · intro hne
      by_contra h0
      exact hne (h.1.mpr h0)
    · intro h0 hpl
      exact (h.1.mp hpl) h0
  · intro h0
    have h2 := h.2 h0
    by_cases hb : b.countPieces WHITE < b.countPieces BLACK
    · rw [if_pos hb]
      exact (h2.1.mpr hb)
    · rw [if_neg hb]
      by_cases hw : b.countPieces BLACK < b.countPieces WHITE
      · rw [if_pos hw]
        exact (h2.2.1.mpr hw)
      · rw [if_neg hw]
        exact (h2.2.2.mpr (by omega))

/-- Witness for C4 (amended): the full 1×1 board with one black stone is
decided, black winning 1 to 0. -/
theorem c4_reversi_checkWin_full_board_only_witness :
    ReversiRule.checkWin reversiFullBoard = BLACK_WIN := by
  have h := (c4_reversi_checkWin_full_board_only reversiFullBoard).2 (by decide)
  simpa using h

theorem backpropagate_length (r : ℚ) : ∀ l : List MCTSNode,
    (backpropagate r l).length = l.length := by
  intro l
  induction l with
  | nil => rfl
  | cons n t ih => simpa [backpropagate] using ih

theorem backpropagate_get (r : ℚ) : ∀ (l : List MCTSNode) (i : Nat) (n : MCTSNode),
    l[i]? = some n →
    (backpropagate r l)[i]? =
      some { n with visits := n.visits + 1,
                    wins := n.wins + (if n.playerMoved = BLACK then r else 1 - r) } := by
  intro l
  induction l with
  | nil => intro i n h; simp at h
  | cons m t ih =>
    intro i n h
    cases i with
    | zero =>
      simp only [List.getElem?_cons_zero, Option.some.injEq] at h
      subst h
      simp [backpropagate]
    | succ i =>
      simp only [List.getElem?_cons_succ] at h
      simpa [backpropagate] using ih i n h

/-- C7: MCTS backpropagation maps the simulation outcome to 1 for a black
win, 0 for a white win and 1/2 for a draw, then walks the node-to-root
chain, incrementing each node's visit count by one and adding to its reward
sum the outcome as-is when the node's move-maker is black and one minus the
outcome when it is white. -/
theorem c7_mcts_backpropagation (status : GameStatus) (path : List MCTSNode) :
    simResult BLACK_WIN = 1 ∧ simResult WHITE_WIN = 0 ∧ simResult DRAW = 1 / 2
    ∧ (backpropagate (simResult status) path).length = path.length
    ∧ ∀ (i : Nat) (n : MCTSNode), path[i]? = some n →
        (backpropagate (simResult status) path)[i]? =
          some { n with visits := n.visits + 1,
                        wins := n.wins + (if n.playerMoved = BLACK then simResult status
                          else 1 - simResult status) } :=
  ⟨by unfold simResult; rw [if_pos rfl],
    by unfold simResult; rw [if_neg (by decide), if_pos rfl],
    by unfold simResult; rw [if_neg (by decide), if_neg (by decide)],
    backpropagate_length _ path,
    fun i n h => backpropagate_get (simResult status) path i n h⟩

/-- Witness for C7: backpropagating a draw through `samplePath` turns the
black node with 3 visits and reward 2 into 4 visits and reward 5/2. -/
theorem c7_mcts_backpropagation_witness :
    (backpropagate (simResult DRAW) samplePath)[0]? = some ⟨(0, 0), BLACK, 4, 5 / 2⟩ := by
  have h := (c7_mcts_backpropagation DRAW samplePath).2.2.2.2 0 ⟨(0, 0), BLACK, 3, 2⟩ (by simp [samplePath])
  rw [h]
  norm_num [simResult]
  rw [if_neg (by decide), if_neg (by decide)]
  norm_num

theorem bestChildFold_spec : ∀ (l : List MCTSNode) (acc : (Int × Int) × Int),
    (bestChildFold l acc = acc
      ∨ ∃ c ∈ l, (bestChildFold l acc).1 = c.move ∧ (bestChildFold l acc).2 = (c.visits : Int))
    ∧ acc.2 ≤ (bestChildFold l acc).2
    ∧ ∀ c ∈ l, (c.visits : Int) ≤ (bestChildFold l acc).2 := by
  intro l
  induction l with
  | nil =>
    intro acc
    exact ⟨Or.inl rfl, le_refl _, fun c hc => absurd hc (List.not_mem_nil c)⟩
  | cons c t ih =>
    intro acc
    rw [bestChildFold]
    split
    next hlt =>
      obtain ⟨hdisj, hle, hall⟩ := ih (c.move, (c.visits : Int))
      refine ⟨?_, ?_, ?_⟩
      · rcases hdisj with h | ⟨c2, hc2, h1, h2⟩
        · exact Or.inr ⟨c, List.mem_cons_self _ _, by rw [h], by rw [h]⟩
        · exact Or.inr ⟨c2, List.mem_cons_of_mem _ hc2, h1, h2⟩
      · exact le_trans (le_of_lt hlt) hle
      · intro c2 hc2
        rcases List.mem_cons.mp hc2 with h | h
        · rw [h]
          exact hle
        · exact hall c2 h
    next hge =>
      obtain ⟨hdisj, hle, hall⟩ := ih acc
      refine ⟨?_, hle, ?_⟩
      · rcases hdisj with h | ⟨c2, hc2, h1, h2⟩
        · exact Or.inl h
        · exact Or.inr ⟨c2, List.mem_cons_of_mem _ hc2, h1, h2⟩
      · intro c2 hc2
        rcases List.mem_cons.mp hc2 with h | h
        · rw [h]
          exact le_trans (by omega) hle
        · exact hall c2 h

/-- C8: the MCTS decision is the move of a root child with the highest
visit count; with no children it is the pass sentinel (-1,-1). -/
theorem c8_mcts_final_decision (children : List MCTSNode) :
    (children = [] → finalDecision children = (-1, -1))
    ∧ (children ≠ [] → ∃ c ∈ children, finalDecision children = c.move
        ∧ ∀ c2 ∈ children, c2.visits ≤ c.visits) := by
  constructor
  · intro h
    subst h
    rfl
  · intro hne
    obtain ⟨hdisj, hle, hall⟩ := bestChildFold_spec children ((-1, -1), -1)
    unfold finalDecision
    rcases hdisj with h | ⟨c, hc, h1, h2⟩
    · exfalso
      obtain ⟨c0, hc0⟩ := List.exists_mem_of_ne_nil children hne
      have hb := hall c0 hc0
      rw [h] at hb
      have : (0 : Int) ≤ (c0.visits : Int) := Int.ofNat_nonneg _
      simp at hb
      omega
    · refine ⟨c, hc, h1, ?_⟩
      intro c2 hc2
      have hb := hall c2 hc2
      rw [h2] at hb
      exact_mod_cast hb

/-- Witness for C8: among `sampleChildren` the engine picks (2,2), the move
of the child with 9 visits. -/
theorem c8_mcts_final_decision_witness :
    ∃ c ∈ sampleChildren, finalDecision sampleChildren = c.move
      ∧ ∀ c2 ∈ sampleChildren, c2.visits ≤ c.visits :=
  (c8_mcts_final_decision sampleChildren).2 (by simp [sampleChildren])

theorem listGetDAppendLeft {α : Type} : ∀ (l1 l2 : List α) (k : Nat) (d : α),
    k < l1.length → (l1 ++ l2).getD k d = l1.getD k d
  | [], _, k, _, h => absurd h (by simp)
  | x :: t, l2, 0, d, _ => rfl
  | x :: t, l2, Nat.succ k, d, h => by
    simp only [List.cons_append, List.getD_cons_succ]
    exact listGetDAppendLeft t l2 k d (by simpa using h)

theorem listGetDAppendRight {α : Type} : ∀ (l1 l2 : List α) (k : Nat) (d : α),
    (l1 ++ l2).getD (l1.length + k) d = l2.getD k d
  | [], _, k, _ => by simp
  | x :: t, l2, k, d => by
    simp only [List.cons_append, List.length_cons]
    have : x :: t ++ l2 = x :: (t ++ l2) := rfl
    rw [show t.length + 1 + k = (t.length + k) + 1 by omega]
    simp only [List.getD_cons_succ]
    exact listGetDAppendRight t l2 k d

theorem rangeMapGetD {α : Type} (n : Nat) (f : Nat → α) (j : Nat) (d : α) (h : j < n) :
    ((List.range n).map f).getD j d = f j := by
  rw [List.getD_eq_getElem?_getD, List.getElem?_map, List.getElem?_range h]
  rfl

theorem flattenGetD {α : Type} (d : α) (n : Nat) : ∀ (rows : List (List α)) (i j : Nat),
    (∀ r ∈ rows, r.length = n) → j < n → i < rows.length →
    rows.flatten.getD (i * n + j) d = (rows.getD i []).getD j d := by
  intro rows
  induction rows with
  | nil => intro i j _ _ h; simp at h
  | cons r t ih =>
    intro i j hlen hj hi
    cases i with
    | zero =>
      simp only [List.flatten_cons, Nat.zero_mul, Nat.zero_add]
      rw [listGetDAppendLeft _ _ _ _ (by rw [hlen r (List.mem_cons_self _ _)]; exact hj)]
      rfl
    | succ i =>
      simp only [List.flatten_cons]
      rw [show (i + 1) * n + j = r.length + (i * n + j) by
        rw [hlen r (List.mem_cons_self _ _)]; ring]
      rw [listGetDAppendRight]
      simp only [List.getD_cons_succ]
      exact ih i j (fun s hs => hlen s (List.mem_cons_of_mem _ hs)) hj (by simpa using hi)

theorem natToPiece_pieceVal : ∀ p : Piece, natToPiece (pieceVal p) = p := by
  intro p
  cases p <;> rfl

/-- C9: for every well-formed board, deserializing the output of
`serialize` yields a board with the same size and equal cells everywhere:
the serialization is the size followed by the row-major cell values, and
`deserialize` inverts it. -/
theorem c9_serialize_roundtrip (b : Board) (_hwf : b.WF) :
    (Board.deserialize b.serialize).size = b.size
    ∧ ∀ x y : Int, (Board.deserialize b.serialize).getPiece x y = b.getPiece x y := by
  have hsize : (Board.deserialize b.serialize).size = b.size := rfl
  refine ⟨hsize, ?_⟩
  intro x y
  by_cases hb : b.isValidBounds x y
  · have hb2 : (Board.deserialize b.serialize).isValidBounds x y := by
      unfold Board.isValidBounds at hb ⊢
      rw [hsize]
      exact hb
    obtain ⟨hx1, hx2, hy1, hy2⟩ := id hb
    have hxn : x.toNat < b.size := by omega
    have hyn : y.toNat < b.size := by omega
    unfold Board.getPiece
    rw [if_pos hb2, if_pos hb]
    show ((Board.deserialize b.serialize).grid.getD x.toNat []).getD y.toNat EMPTY = _
    unfold Board.deserialize Board.serialize
    simp only [List.headD_cons, List.tail_cons]
    rw [rangeMapGetD b.size _ x.toNat [] hxn]
    rw [rangeMapGetD b.size _ y.toNat EMPTY hyn]
    rw [flattenGetD 0 b.size _ x.toNat y.toNat
      (by
        intro r hr
        obtain ⟨i, hi, rfl⟩ := List.mem_map.mp hr
        simp) hyn (by simpa using hxn)]
    rw [rangeMapGetD b.size _ x.toNat []]
    · rw [rangeMapGetD b.size _ y.toNat 0 hyn]
      exact natToPiece_pieceVal _
    · exact hxn
  · have hb2 : ¬ (Board.deserialize b.serialize).isValidBounds x y := by
      unfold Board.isValidBounds at hb ⊢
      rw [hsize]
      exact hb
    unfold Board.getPiece
    rw [if_neg hb2, if_neg hb]

theorem goScoreStep_nat (b : Board) (st : Finset (Int × Int) × ℚ × ℚ) (c : Int × Int)
    (h : ∃ B W : Nat, st.2.1 = (B : ℚ) ∧ st.2.2 = (W : ℚ)) :
    ∃ B W : Nat, (goScoreStep b st c).2.1 = (B : ℚ) ∧ (goScoreStep b st c).2.2 = (W : ℚ) := by
  obtain ⟨B, W, h1, h2⟩ := h
  unfold goScoreStep
  split
  · exact ⟨B, W, h1, h2⟩
  · split
    · exact ⟨B + 1, W, by push_cast [h1]; ring, h2⟩
    · split
      · exact ⟨B, W + 1, h1, by push_cast [h2]; ring⟩
      · dsimp only
        split
        · exact ⟨B + (floodFill b (b.size * b.size + 1)
            { queue := [c], checked := insert c st.1, terr := [c],
              tB := false, tW := false }).terr.length, W, by push_cast [h1]; ring, h2⟩
        · split
          · exact ⟨B, W + (floodFill b (b.size * b.size + 1)
              { queue := [c], checked := insert c st.1, terr := [c],
                tB := false, tW := false }).terr.length, h1, by push_cast [h2]; ring⟩
          · exact ⟨B, W, h1, h2⟩

theorem goScoreFold_nat (b : Board) : ∀ (cells : List (Int × Int))
    (st : Finset (Int × Int) × ℚ × ℚ),
    (∃ B W : Nat, st.2.1 = (B : ℚ) ∧ st.2.2 = (W : ℚ)) →
    ∃ B W : Nat, (cells.foldl (goScoreStep b) st).2.1 = (B : ℚ)
      ∧ (cells.foldl (goScoreStep b) st).2.2 = (W : ℚ) := by
  intro cells
  induction cells with
  | nil => intro st h; exact h
  | cons c t ih =>
    intro st h
    rw [List.foldl_cons]
    exact ih _ (goScoreStep_nat b st c h)

/-- C10: Territory-Capture scoring returns a natural black total and a
natural white total plus the unconditional 15/4 = 3.75 compensation, so the
two scores are never equal and black's score is the strictly larger one
exactly when the raw black total exceeds the raw white total by at least 4. -/
theorem c10_go_score_never_ties (b : Board) :
    ∃ B W : Nat, GoRule.calculateScore b = ((B : ℚ), (W : ℚ) + 15 / 4)
      ∧ (GoRule.calculateScore b).1 ≠ (GoRule.calculateScore b).2
      ∧ ((GoRule.calculateScore b).2 < (GoRule.calculateScore b).1 ↔ W + 4 ≤ B) := by
  obtain ⟨B, W, h1, h2⟩ := goScoreFold_nat b (rowMajorCells b)
    ((∅ : Finset (Int × Int)), (0 : ℚ), (0 : ℚ)) ⟨0, 0, rfl, rfl⟩
  have hsc : GoRule.calculateScore b = ((B : ℚ), (W : ℚ) + 15 / 4) := by
    unfold GoRule.calculateScore
    dsimp only
    rw [h1, h2]
  refine ⟨B, W, hsc, ?_, ?_⟩
  · rw [hsc]
    dsimp only
    intro h
    have h4 : (B : ℚ) * 4 = (W : ℚ) * 4 + 15 := by linarith
    have h5 : (B * 4 : ℚ) = ((W * 4 + 15 : Nat) : ℚ) := by push_cast; linarith
    have h6 : B * 4 = W * 4 + 15 := by exact_mod_cast h5
    omega
  · rw [hsc]
    dsimp only
    constructor
    · intro h
      have h4 : (W : ℚ) * 4 + 15 < (B : ℚ) * 4 := by linarith
      have h5 : ((W * 4 + 15 : Nat) : ℚ) < ((B * 4 : Nat) : ℚ) := by push_cast; linarith
      have h6 : W * 4 + 15 < B * 4 := by exact_mod_cast h5
      omega
    · intro h
      have h4 : ((W + 4 : Nat) : ℚ) ≤ ((B : Nat) : ℚ) := by exact_mod_cast h
      push_cast at h4
      linarith

/-- Witness for C9: the 2×2 `roundTripBoard` survives the round trip, its
white stone at (1,0) included. -/
theorem c9_serialize_roundtrip_witness :
    (Board.deserialize roundTripBoard.serialize).size = 2
    ∧ (Board.deserialize roundTripBoard.serialize).getPiece 1 0 = WHITE := by
  have h := c9_serialize_roundtrip roundTripBoard (by decide)
  exact ⟨h.1, (h.2 1 0).trans (by decide)⟩
